import Mathlib

/-!
# Verification of the Topf persistence transformer

A shallow embedding of `topf/topf.py` (classes `UnionFind`,
`PersistenceDiagram.total_persistence` and `PersistenceTransformer.fit_transform`)
together with proofs about the embedded functions.

Embedding conventions:
* sample heights and positions are rationals (`ℚ`);
* the input of `fit_transform` is a list of rows (`List (List ℚ)`), so that the
  shape validation `len(a.shape) != 2 or a.shape[1] != 2` can be expressed:
  `np.asarray` yields a two-dimensional array of width 2 exactly when the list
  is non-empty and every row has exactly two entries;
* the recursive `UnionFind.find` carries explicit fuel (the transformer always
  passes the vertex count, which the well-formedness invariant `WF` shows is
  enough); path compression is performed exactly as in the source;
* `RuntimeError` / `IndexError` become an `Except` error; `logging.warn` calls
  become elements of a returned warning list;
* Python list indexing (including negative indices) is `pyIdx`.
-/

-- Batteries marks the rational-number arithmetic `@[irreducible]`, which stops
-- `decide` from evaluating closed runs of the embedded code; restore the
-- default reducibility for this development.
set_option allowUnsafeReducibility true
attribute [local semireducible] Rat.add Rat.sub Rat.mul Rat.inv
set_option allowUnsafeReducibility false

namespace Topf

/-- Fatal errors of `fit_transform`: the `RuntimeError('Unexpected array
format')` raised by the shape validation, and the `IndexError` a Python list
raises on an out-of-range index. -/
inductive Err where
  | invalidInput
  | indexError
deriving DecidableEq

/-- The two `logging.warn` diagnostics of the peak-filtering code. -/
inductive Warn where
  | tooManyPeaks
  | duplicateValues
deriving DecidableEq

namespace UnionFind

/-- `UnionFind.find` from topf.py: follows parent pointers, performing path
compression (every visited vertex's parent is set to the discovered root).
The Python recursion is unbounded; here it carries explicit fuel.  Every call
made by the transformer passes the vertex count as fuel, which `WF` proves
sufficient, so the fuel-exhausted branch is never taken on reachable states. -/
def findAux : ℕ → (ℕ → ℕ) → ℕ → ((ℕ → ℕ) × ℕ)
  | 0, p, u => (p, u)
  | fuel + 1, p, u =>
    if p u = u then (p, u)
    else
      let res := findAux fuel p (p u)
      (Function.update res.1 u res.2, res.2)

/-- `UnionFind.merge` from topf.py: `if u != v: parent[find(u)] = find(v)`.
Python evaluates the right-hand side `find(v)` before the assignment target's
subscript `find(u)`; the compression state is threaded in that order. -/
def merge (fuel : ℕ) (p : ℕ → ℕ) (u v : ℕ) : ℕ → ℕ :=
  if u = v then p
  else
    let rv := findAux fuel p v
    let ru := findAux fuel rv.1 u
    Function.update ru.1 ru.2 rv.2

/-- `r` is the root of `u`: reachable along parent pointers and a fixpoint. -/
def Root (p : ℕ → ℕ) (u r : ℕ) : Prop :=
  (∃ k, p^[k] u = r) ∧ p r = r

/-- Well-formedness of a parent map for `n` vertices: vertices below `n` stay
below `n`, vertices from `n` on are their own parent, and parent pointers are
acyclic (witnessed by a measure that strictly decreases along them). -/
def WF (n : ℕ) (p : ℕ → ℕ) : Prop :=
  (∀ u, u < n → p u < n) ∧ (∀ u, n ≤ u → p u = u) ∧
    ∃ m : ℕ → ℕ, ∀ u, p u ≠ u → m (p u) < m u

end UnionFind

/-- The mutable state of the sweep loop of `fit_transform`: the union-find
parent map, the persistence array and the death column `b[:, 1]` of the
diagram (the birth column `b[:, 0]` is `a[:, 1]` and never changes). -/
structure SweepState where
  parent : ℕ → ℕ
  pers : ℕ → ℚ
  death : ℕ → ℚ

/-- One iteration of the sweep loop of `fit_transform` (topf.py lines 160-209),
processing sample `index`; `cd` is `calculate_persistence_diagram`.  Interior
test, local-minimum branch, regular-point branch and the interleaving of
`uf.find` calls (each of which compresses paths) follow the source; Python's
`left_index >= 0 and right_index <= num_vertices - 1` is expressed on ℕ as
`1 ≤ index ∧ index + 1 ≤ n - 1`. -/
def step (n : ℕ) (y : ℕ → ℚ) (cd : Bool) (st : SweepState) (index : ℕ) :
    SweepState :=
  if 1 ≤ index ∧ index + 1 ≤ n - 1 then
    let li := index - 1
    let ri := index + 1
    let yc := y index
    if y li ≥ yc ∧ yc ≤ y ri then
      -- the point is a local minimum: merge the two neighbours
      let fL := UnionFind.findAux n st.parent li
      let fR := UnionFind.findAux n fL.1 ri
      if y fL.2 < y fR.2 then
        -- left representative is younger: it is merged into the right one
        let a1 := UnionFind.findAux n fR.1 li   -- RHS of the assignment
        let a2 := UnionFind.findAux n a1.1 li   -- assignment target subscript
        let pers' := Function.update st.pers a2.2 (y a1.2 - yc)
        let d :=
          if cd then
            let a3 := UnionFind.findAux n a2.1 li
            (a3.1, Function.update st.death a3.2 yc)
          else (a2.1, st.death)
        let p1 := UnionFind.merge n d.1 li index
        let p2 := UnionFind.merge n p1 index ri
        ⟨p2, pers', d.2⟩
      else
        let a1 := UnionFind.findAux n fR.1 ri
        let a2 := UnionFind.findAux n a1.1 ri
        let pers' := Function.update st.pers a2.2 (y a1.2 - yc)
        let d :=
          if cd then
            let a3 := UnionFind.findAux n a2.1 ri
            (a3.1, Function.update st.death a3.2 yc)
          else (a2.1, st.death)
        let p1 := UnionFind.merge n d.1 ri index
        let p2 := UnionFind.merge n p1 index li
        ⟨p2, pers', d.2⟩
    else if ¬ (yc > y li ∧ yc > y ri) then
      -- regular point: merge into the neighbour with the taller representative
      let fL := UnionFind.findAux n st.parent li
      let fR := UnionFind.findAux n fL.1 ri
      if y fL.2 < y fR.2 then
        ⟨UnionFind.merge n fR.1 index ri, st.pers, st.death⟩
      else
        ⟨UnionFind.merge n fR.1 index li, st.pers, st.death⟩
    else st
  else st

/-- The order realizing `np.argsort(-a[:, 1], kind='stable')` on the index
list `[0, …, n-1]`: indices ordered by descending height, ties by ascending
index (the stable sort keeps equal-height indices in their original,
increasing, order).  This is a total antisymmetric order, so the sorted
permutation of `range n` is unique and any correct sort computes it. -/
def sweepLE (y : ℕ → ℚ) (i j : ℕ) : Prop :=
  y j < y i ∨ (y i = y j ∧ i ≤ j)

instance sweepLE.decRel (y : ℕ → ℚ) : DecidableRel (sweepLE y) := fun i j =>
  inferInstanceAs (Decidable (y j < y i ∨ (y i = y j ∧ i ≤ j)))

/-- What one `fit_transform` call produces: the transformed `(x, persistence)`
array, the optional persistence diagram (as its `(birth, death)` pairs), and
the warnings logged on the way. -/
structure Result where
  output : List (ℚ × ℚ)
  diagram : Option (List (ℚ × ℚ))
  warnings : List Warn
deriving DecidableEq

instance {ε α : Type} [DecidableEq ε] [DecidableEq α] :
    DecidableEq (Except ε α) := fun a b =>
  match a, b with
  | .error e, .error f =>
    if h : e = f then isTrue (by rw [h]) else
      isFalse (fun hc => h (by injection hc))
  | .error _, .ok _ => isFalse (fun hc => Except.noConfusion hc)
  | .ok _, .error _ => isFalse (fun hc => Except.noConfusion hc)
  | .ok v, .ok w =>
    if h : v = w then isTrue (by rw [h]) else
      isFalse (fun hc => h (by injection hc))

/-- Python list indexing `l[i]`, including negative indices counting from the
end; out of range raises `IndexError`. -/
def pyIdx (l : List ℚ) (i : ℤ) : Except Err ℚ :=
  let j : ℤ := if i < 0 then (l.length : ℤ) + i else i
  if 0 ≤ j ∧ j < (l.length : ℤ) then .ok (l.getD j.toNat 0)
  else .error .indexError

/-- The row list as `(x, y)` pairs (each validated row has exactly two
entries). -/
def toPairs (rows : List (List ℚ)) : List (ℚ × ℚ) :=
  rows.map fun r => (r.getD 0 0, r.getD 1 0)

/-- The column `a[:, 0]` as a total function on indices. -/
def xOf (a : List (ℚ × ℚ)) : ℕ → ℚ := fun i => (a.getD i (0, 0)).1

/-- The column `a[:, 1]` as a total function on indices. -/
def yOf (a : List (ℚ × ℚ)) : ℕ → ℚ := fun i => (a.getD i (0, 0)).2

/-- `np.argsort(-a[:, 1], kind='stable')`: the index list `[0, …, n-1]` sorted
by descending height with ties broken by ascending index — the unique
`sweepLE`-sorted permutation of `range n` (insertion sort is used because it
recurses structurally, so closed runs evaluate inside the kernel). -/
def sweepIndices (y : ℕ → ℚ) (n : ℕ) : List ℕ :=
  (List.range n).insertionSort (sweepLE y)

/-- The sweep state before the loop: every vertex its own parent, persistence
zero everywhere, every diagram point paired with itself (`b[:, 1] = a[:, 1]`). -/
def initState (y : ℕ → ℚ) : SweepState :=
  ⟨fun v => v, fun _ => 0, fun i => y i⟩

/-- The sweep loop of `fit_transform` (topf.py lines 160-209). -/
def runSweep (n : ℕ) (y : ℕ → ℚ) (cd : Bool) : SweepState :=
  (sweepIndices y n).foldl (step n y cd) (initState y)

/-- The state after the sweep and the global-extremum pairing (lines 211-221):
the globally tallest sample (`indices[0]`) is assigned persistence
`a[gmax, 1] - a[gmin, 1]` and, in diagram mode, death `a[gmin, 1]`. -/
def finalState (n : ℕ) (y : ℕ → ℚ) (cd : Bool) : SweepState :=
  let st := runSweep n y cd
  if 0 < n then
    ⟨st.parent,
     Function.update st.pers ((sweepIndices y n).headD 0)
       (y ((sweepIndices y n).headD 0) - y ((sweepIndices y n).getLastD 0)),
     if cd then
       Function.update st.death ((sweepIndices y n).headD 0)
         (y ((sweepIndices y n).getLastD 0))
     else st.death⟩
  else st

/-- `sorted(persistence)[::-1]`: the persistence values sorted ascending and
reversed.  Since `≤` on ℚ is antisymmetric, every sorted permutation of the
same values is the same list, so the choice of sorting algorithm is
immaterial; insertion sort evaluates inside the kernel. -/
def sortedDesc (l : List ℚ) : List ℚ :=
  (l.insertionSort (· ≤ ·)).reverse

/-- The persistence array as a list, in sample order. -/
def persListOf (n : ℕ) (pers : ℕ → ℚ) : List ℚ :=
  (List.range n).map pers

/-- The `if`/`elif` chain of the peak filtering (topf.py lines 241-261): it
yields the effective peak count and the warning to log, or the `IndexError`
raised by `persistence_values[n_peaks + 1]`. -/
def filterBranch (n : ℕ) (persVals : List ℚ) (k : ℕ) :
    Except Err (ℕ × List Warn) :=
  if k = n then .ok (k, [])
  else if k > n then .ok (n, [.tooManyPeaks])
  else
    match pyIdx persVals (k : ℤ) with
    | .error e => .error e
    | .ok vk =>
      match pyIdx persVals ((k : ℤ) + 1) with
      | .error e => .error e
      | .ok vk1 => .ok (k, if vk = vk1 then [.duplicateValues] else [])

/-- The peak-filtering epilogue of `fit_transform` (topf.py lines 231-265),
given the requested count `k = n_peaks`: the `if`/`elif` chain picks the
effective count and the warning, then every persistence value strictly below
`persistence_values[n_peaks - 1]` is zeroed. -/
def applyFilter (n : ℕ) (x : ℕ → ℚ) (pers : ℕ → ℚ)
    (diagram : Option (List (ℚ × ℚ))) (k : ℕ) : Except Err Result :=
  let persVals := sortedDesc (persListOf n pers)
  match filterBranch n persVals k with
  | .error e => .error e
  | .ok kw =>
    match pyIdx persVals ((kw.1 : ℤ) - 1) with
    | .error e => .error e
    | .ok threshold =>
      .ok ⟨(List.range n).map
             (fun i => (x i, if pers i < threshold then 0 else pers i)),
           diagram, kw.2⟩

/-- `PersistenceTransformer.fit_transform` (topf.py lines 131-267).
`cd` is the `calculate_persistence_diagram` option, `nPeaks` the `n_peaks`
option; `rows` is the input sequence as raw rows so that the shape check
`len(a.shape) != 2 or a.shape[1] != 2` is expressible: `np.asarray` yields a
two-dimensional width-2 array exactly when the list is non-empty and every row
has exactly two entries.  Validation, sweep, global-extremum pairing, diagram
packaging and peak filtering follow the source line by line. -/
def fit_transform (cd : Bool) (nPeaks : Option ℕ) (rows : List (List ℚ)) :
    Except Err Result :=
  if rows = [] ∨ ¬ (∀ r ∈ rows, r.length = 2) then .error .invalidInput
  else
    let a := toPairs rows
    let n := a.length
    let st2 := finalState n (yOf a) cd
    let diagram : Option (List (ℚ × ℚ)) :=
      if cd then some ((List.range n).map fun i => (yOf a i, st2.death i)) else none
    match nPeaks with
    | none => .ok ⟨(List.range n).map (fun i => (xOf a i, st2.pers i)), diagram, []⟩
    | some k => applyFilter n (xOf a) st2.pers diagram k

/-- `PersistenceDiagram.total_persistence` before the final root: the sum
`np.sum(np.power(self._pairs[:, 0] - self._pairs[:, 1], p))`.  The code
subtracts the columns directly and takes no absolute value. -/
def total_persistence_pow (pairs : List (ℚ × ℚ)) (p : ℕ) : ℚ :=
  (pairs.map fun q => (q.1 - q.2) ^ p).sum

/-- `total_persistence` at the default exponent `p = 1.0`: both `np.power`
calls are the identity there, so the result is the plain sum of the column
differences. -/
def total_persistence1 (pairs : List (ℚ × ℚ)) : ℚ :=
  total_persistence_pow pairs 1

/-- The maximum of a list of rationals (`0` for the empty list, which never
occurs on validated input). -/
def maxOf : List ℚ → ℚ
  | [] => 0
  | a :: l => l.foldl max a

/-- The minimum of a list of rationals (`0` for the empty list). -/
def minOf : List ℚ → ℚ
  | [] => 0
  | a :: l => l.foldl min a

/-- The sweep invariant: the parent map is well-formed, every component
representative is at least as tall as each of its members, components are
intervals of indices, persistence values lie in `[0, hi - lo]`, and (in
diagram mode) each sample's persistence equals its birth minus its death. -/
structure Good (n : ℕ) (y : ℕ → ℚ) (lo hi : ℚ) (cd : Bool) (st : SweepState) :
    Prop where
  wf : UnionFind.WF n st.parent
  mono : ∀ v r, UnionFind.Root st.parent v r → y v ≤ y r
  intv : ∀ a w b r, a ≤ w → w ≤ b → UnionFind.Root st.parent a r →
    UnionFind.Root st.parent b r → UnionFind.Root st.parent w r
  nonneg : ∀ u, 0 ≤ st.pers u
  upper : ∀ u, st.pers u ≤ hi - lo
  link : cd = true → ∀ u, st.pers u = y u - st.death u

namespace UnionFind

theorem findAux_succ (f : ℕ) (p : ℕ → ℕ) (u : ℕ) :
    findAux (f + 1) p u =
      if p u = u then (p, u)
      else
        (Function.update (findAux f p (p u)).1 u (findAux f p (p u)).2,
         (findAux f p (p u)).2) := by
  by_cases h : p u = u <;> simp [findAux, h]

/-- Unfolding equation of `merge`. -/
theorem merge_def (fuel : ℕ) (p : ℕ → ℕ) (u v : ℕ) :
    merge fuel p u v =
      if u = v then p
      else
        Function.update (findAux fuel (findAux fuel p v).1 u).1
          (findAux fuel (findAux fuel p v).1 u).2 (findAux fuel p v).2 := by
  by_cases h : u = v <;> simp [merge, h]

theorem root_refl {p : ℕ → ℕ} {r : ℕ} (h : p r = r) : Root p r r :=
  ⟨⟨0, rfl⟩, h⟩

theorem root_unique {p : ℕ → ℕ} {u r s : ℕ} (h1 : Root p u r) (h2 : Root p u s) :
    r = s := by
  obtain ⟨⟨k, hk⟩, hr⟩ := h1
  obtain ⟨⟨j, hj⟩, hs⟩ := h2
  rcases le_total k j with h | h
  · have he : p^[j] u = p^[j - k] (p^[k] u) := by
      rw [← Function.iterate_add_apply, Nat.sub_add_cancel h]
    rw [he, hk, Function.iterate_fixed hr] at hj
    exact hj
  · have he : p^[k] u = p^[k - j] (p^[j] u) := by
      rw [← Function.iterate_add_apply, Nat.sub_add_cancel h]
    rw [he, hj, Function.iterate_fixed hs] at hk
    exact hk.symm

theorem root_step {p : ℕ → ℕ} {u r : ℕ} (hne : p u ≠ u) :
    Root p (p u) r ↔ Root p u r := by
  constructor
  · rintro ⟨⟨k, hk⟩, hr⟩
    exact ⟨⟨k + 1, by rw [Function.iterate_succ_apply]; exact hk⟩, hr⟩
  · rintro ⟨⟨k, hk⟩, hr⟩
    cases k with
    | zero =>
      have hur : u = r := hk
      subst hur
      exact absurd hr hne
    | succ k => exact ⟨⟨k, by rw [← Function.iterate_succ_apply]; exact hk⟩, hr⟩

theorem WF.lt {n : ℕ} {p : ℕ → ℕ} (h : WF n p) {u : ℕ} (hu : u < n) (k : ℕ) :
    p^[k] u < n := by
  induction k with
  | zero => exact hu
  | succ k ih => rw [Function.iterate_succ_apply']; exact h.1 _ ih

theorem WF.exists_fix {n : ℕ} {p : ℕ → ℕ} (h : WF n p) (hn : 0 < n) (u : ℕ) :
    ∃ k, k < n ∧ p (p^[k] u) = p^[k] u := by
  by_cases hu : u < n
  · by_contra hc
    push_neg at hc
    obtain ⟨m, hm⟩ := h.2.2
    have hstep : ∀ k, k < n → m (p^[k + 1] u) < m (p^[k] u) := by
      intro k hk
      rw [Function.iterate_succ_apply']
      exact hm _ (hc k hk)
    have hmono : ∀ i j, i < j → j ≤ n → m (p^[j] u) < m (p^[i] u) := by
      intro i j hij hj
      induction j with
      | zero => omega
      | succ j ih =>
        rcases Nat.lt_or_ge i j with h' | h'
        · exact lt_trans (hstep j (by omega)) (ih h' (by omega))
        · have hij' : i = j := by omega
          subst hij'
          exact hstep i (by omega)
    have hinj : Function.Injective
        (fun k : Fin (n + 1) => (⟨p^[k.val] u, h.lt hu k.val⟩ : Fin n)) := by
      intro i j hij
      simp only [Fin.mk.injEq] at hij
      by_contra hne
      have hne' : i.val ≠ j.val := fun hv => hne (Fin.ext hv)
      rcases Nat.lt_or_ge i.val j.val with h' | h'
      · have := hmono i.val j.val h' (by omega)
        rw [hij] at this
        exact lt_irrefl _ this
      · have h'' : j.val < i.val := by omega
        have := hmono j.val i.val h'' (by omega)
        rw [hij] at this
        exact lt_irrefl _ this
    have := Fintype.card_le_of_injective _ hinj
    simp only [Fintype.card_fin] at this
    omega
  · exact ⟨0, hn, h.2.1 u (le_of_not_lt hu)⟩

theorem root_exists {n : ℕ} {p : ℕ → ℕ} (h : WF n p) (hn : 0 < n) (u : ℕ) :
    ∃ r, Root p u r := by
  obtain ⟨k, _, hfix⟩ := h.exists_fix hn u
  exact ⟨p^[k] u, ⟨⟨k, rfl⟩, hfix⟩⟩

theorem root_lt {n : ℕ} {p : ℕ → ℕ} {u r : ℕ} (h : WF n p) (hu : u < n)
    (hr : Root p u r) : r < n := by
  obtain ⟨⟨k, hk⟩, _⟩ := hr
  exact hk ▸ h.lt hu k

theorem root_of_ge {n : ℕ} {p : ℕ → ℕ} {u r : ℕ} (h : WF n p) (hu : n ≤ u)
    (hr : Root p u r) : r = u :=
  root_unique hr (root_refl (h.2.1 u hu))

theorem iterate_measure_le {p : ℕ → ℕ} {m : ℕ → ℕ}
    (hm : ∀ u, p u ≠ u → m (p u) < m u) (v : ℕ) (j : ℕ) :
    m (p^[j] v) ≤ m v := by
  induction j with
  | zero => exact le_rfl
  | succ j ih =>
    rw [Function.iterate_succ_apply']
    by_cases hf : p (p^[j] v) = p^[j] v
    · rw [hf]; exact ih
    · exact le_trans (le_of_lt (hm _ hf)) ih

theorem iterate_update_of_ne {p : ℕ → ℕ} {a b : ℕ} {v : ℕ} :
    ∀ k, (∀ j, j < k → p^[j] v ≠ a) → (Function.update p a b)^[k] v = p^[k] v := by
  intro k
  induction k generalizing v with
  | zero => intro _; rfl
  | succ k ih =>
    intro hne
    rw [Function.iterate_succ_apply, Function.iterate_succ_apply]
    have hva : v ≠ a := hne 0 (Nat.succ_pos k)
    rw [Function.update_noteq hva]
    exact ih (fun j hj => by
      rw [← Function.iterate_succ_apply]
      exact hne (j + 1) (by omega))

theorem exists_min_hit {p : ℕ → ℕ} {v a : ℕ} (h : ∃ j, p^[j] v = a) :
    ∃ j, p^[j] v = a ∧ ∀ i, i < j → p^[i] v ≠ a :=
  ⟨Nat.find h, Nat.find_spec h, fun _ hi => Nat.find_min h hi⟩

theorem root_of_reach {p : ℕ → ℕ} {v a r : ℕ} (hreach : ∃ j, p^[j] v = a)
    (h : Root p v r) : Root p a r := by
  obtain ⟨j, hj⟩ := hreach
  obtain ⟨⟨k, hk⟩, hr⟩ := h
  rcases le_total j k with hle | hle
  · refine ⟨⟨k - j, ?_⟩, hr⟩
    rw [← hj, ← Function.iterate_add_apply, Nat.sub_add_cancel hle]
    exact hk
  · have ha : a = r := by
      rw [← hj, show j = (j - k) + k by omega, Function.iterate_add_apply, hk,
        Function.iterate_fixed hr]
    rw [ha]
    exact root_refl hr

/-- A path-compression update (`parent[u] = find(u)`) keeps the parent map
well-formed and leaves every vertex's root unchanged. -/
theorem update_compress {n : ℕ} {q : ℕ → ℕ} {u r : ℕ} (hwf : WF n q) (hn : 0 < n)
    (hr : Root q u r) :
    WF n (Function.update q u r) ∧
      ∀ v s, Root (Function.update q u r) v s ↔ Root q v s := by
  by_cases hur : u = r
  · subst hur
    have hq : q u = u := hr.2
    have heq : Function.update q u u = q := by
      funext w
      by_cases hwu : w = u
      · rw [hwu, Function.update_same, hq]
      · rw [Function.update_noteq hwu]
    rw [heq]
    exact ⟨hwf, fun v s => Iff.rfl⟩
  · have hqu : q u ≠ u := fun hfix => hur (root_unique hr (root_refl hfix)).symm
    have hun : u < n := by
      by_contra hge
      exact hur (root_of_ge hwf (le_of_not_lt hge) hr).symm
    have hrn : r < n := root_lt hwf hun hr
    constructor
    · refine ⟨?_, ?_, ?_⟩
      · intro w hw
        by_cases hwu : w = u
        · subst hwu
          rw [Function.update_same]
          exact hrn
        · rw [Function.update_noteq hwu]
          exact hwf.1 w hw
      · intro w hw
        have hwu : w ≠ u := by omega
        rw [Function.update_noteq hwu]
        exact hwf.2.1 w hw
      · obtain ⟨m, hm⟩ := hwf.2.2
        refine ⟨m, ?_⟩
        intro w hw
        by_cases hwu : w = u
        · rw [hwu] at hw ⊢
          rw [Function.update_same] at hw ⊢
          obtain ⟨⟨k, hk⟩, _⟩ := hr
          have hk0 : k ≠ 0 := by
            rintro rfl
            exact hur hk
          obtain ⟨k, rfl⟩ := Nat.exists_eq_succ_of_ne_zero hk0
          have hle : m r ≤ m (q u) := by
            rw [← hk, Function.iterate_succ_apply]
            exact iterate_measure_le hm (q u) k
          exact lt_of_le_of_lt hle (hm u hqu)
        · rw [Function.update_noteq hwu] at hw ⊢
          exact hm w hw
    · have key : ∀ v s, Root q v s → Root (Function.update q u r) v s := by
        intro v s hvs
        by_cases hhit : ∃ j, q^[j] v = u
        · have hsr : s = r := root_unique (root_of_reach hhit hvs) hr
          obtain ⟨j, hj, hmin⟩ := exists_min_hit hhit
          subst hsr
          refine ⟨⟨j + 1, ?_⟩, ?_⟩
          · rw [Function.iterate_succ_apply', iterate_update_of_ne j hmin, hj,
              Function.update_same]
          · rw [Function.update_noteq (fun h => hur h.symm)]
            exact hr.2
        · push_neg at hhit
          obtain ⟨⟨k, hk⟩, hs⟩ := hvs
          have hsu : s ≠ u := fun h => hhit k (h ▸ hk)
          refine ⟨⟨k, ?_⟩, ?_⟩
          · rw [iterate_update_of_ne k (fun i _ => hhit i)]
            exact hk
          · rw [Function.update_noteq hsu]
            exact hs
      intro v s
      constructor
      · intro hvs
        obtain ⟨t, ht⟩ := root_exists hwf hn v
        have hst : s = t := root_unique hvs (key v t ht)
        rw [hst]
        exact ht
      · exact key v s

/-- Linking one root under another (`parent[find(u)] = find(v)`) keeps the map
well-formed; the new root of a vertex is `r2` for the members of `r1`'s old
component and is unchanged for everyone else. -/
theorem update_link {n : ℕ} {q : ℕ → ℕ} {r1 r2 : ℕ} (hwf : WF n q) (hn : 0 < n)
    (h1 : q r1 = r1) (h2 : q r2 = r2) (h1n : r1 < n) (h2n : r2 < n) :
    WF n (Function.update q r1 r2) ∧
      ∀ v s, Root (Function.update q r1 r2) v s ↔
        ((Root q v r1 ∧ s = r2) ∨ (Root q v s ∧ s ≠ r1)) := by
  by_cases h12 : r1 = r2
  · subst h12
    have heq : Function.update q r1 r1 = q := by
      funext w
      by_cases hwr : w = r1
      · rw [hwr, Function.update_same, h1]
      · rw [Function.update_noteq hwr]
    rw [heq]
    refine ⟨hwf, fun v s => ?_⟩
    constructor
    · intro h
      by_cases hs : s = r1
      · exact Or.inl ⟨hs ▸ h, hs⟩
      · exact Or.inr ⟨h, hs⟩
    · rintro (⟨h, rfl⟩ | ⟨h, _⟩)
      · exact h
      · exact h
  · have dirA : ∀ v, Root q v r1 → Root (Function.update q r1 r2) v r2 := by
      intro v hv
      obtain ⟨j, hj, hmin⟩ := exists_min_hit hv.1
      refine ⟨⟨j + 1, ?_⟩, ?_⟩
      · rw [Function.iterate_succ_apply', iterate_update_of_ne j hmin, hj,
          Function.update_same]
      · rw [Function.update_noteq (fun h => h12 h.symm)]
        exact h2
    have dirB : ∀ v s, Root q v s → s ≠ r1 → Root (Function.update q r1 r2) v s := by
      intro v s hv hs
      have hnohit : ∀ j, q^[j] v ≠ r1 := by
        intro j hj
        exact hs (root_unique (root_of_reach ⟨j, hj⟩ hv) (root_refl h1))
      obtain ⟨⟨k, hk⟩, hfix⟩ := hv
      refine ⟨⟨k, ?_⟩, ?_⟩
      · rw [iterate_update_of_ne k (fun i _ => hnohit i)]
        exact hk
      · rw [Function.update_noteq hs]
        exact hfix
    constructor
    · refine ⟨?_, ?_, ?_⟩
      · intro w hw
        by_cases hwr : w = r1
        · subst hwr
          rw [Function.update_same]
          exact h2n
        · rw [Function.update_noteq hwr]
          exact hwf.1 w hw
      · intro w hw
        have hwr : w ≠ r1 := by omega
        rw [Function.update_noteq hwr]
        exact hwf.2.1 w hw
      · obtain ⟨m, hm⟩ := hwf.2.2
        classical
        refine ⟨fun w => if ∃ k, q^[k] w = r1 then m w + (m r2 + 1) else m w, ?_⟩
        intro w hw
        dsimp only
        by_cases hwr : w = r1
        · rw [hwr] at hw ⊢
          rw [Function.update_same] at hw ⊢
          have hp1 : ∃ k, q^[k] r1 = r1 := ⟨0, rfl⟩
          have hp2 : ¬ ∃ k, q^[k] r2 = r1 := by
            rintro ⟨k, hk⟩
            rw [Function.iterate_fixed h2] at hk
            exact h12 hk.symm
          rw [if_pos hp1, if_neg hp2]
          omega
        · rw [Function.update_noteq hwr] at hw ⊢
          have hiff : (∃ k, q^[k] w = r1) ↔ (∃ k, q^[k] (q w) = r1) := by
            constructor
            · rintro ⟨k, hk⟩
              cases k with
              | zero => exact absurd hk hwr
              | succ k =>
                exact ⟨k, by rw [← Function.iterate_succ_apply]; exact hk⟩
            · rintro ⟨k, hk⟩
              exact ⟨k + 1, by rw [Function.iterate_succ_apply]; exact hk⟩
          by_cases hreach : ∃ k, q^[k] w = r1
          · rw [if_pos hreach, if_pos (hiff.mp hreach)]
            exact Nat.add_lt_add_right (hm w hw) _
          · rw [if_neg hreach, if_neg (fun h => hreach (hiff.mpr h))]
            exact hm w hw
    · intro v s
      constructor
      · intro hvs
        obtain ⟨t, ht⟩ := root_exists hwf hn v
        by_cases htr : t = r1
        · subst htr
          exact Or.inl ⟨ht, root_unique hvs (dirA v ht)⟩
        · have hst : s = t := root_unique hvs (dirB v t ht htr)
          subst hst
          exact Or.inr ⟨ht, htr⟩
      · rintro (⟨hv, rfl⟩ | ⟨hv, hs⟩)
        · exact dirA v hv
        · exact dirB v s hv hs

/-- `findAux` with enough fuel is well-behaved: the compressed map stays
well-formed, every vertex's root is unchanged, and the returned vertex is the
root of the argument. -/
theorem findAux_spec {n : ℕ} (hn : 0 < n) :
    ∀ (f : ℕ) (p : ℕ → ℕ) (u : ℕ), WF n p →
      (∃ k, k < f ∧ p (p^[k] u) = p^[k] u) →
      WF n (findAux f p u).1 ∧
        (∀ v s, Root (findAux f p u).1 v s ↔ Root p v s) ∧
        Root p u (findAux f p u).2 := by
  intro f
  induction f with
  | zero =>
    rintro p u hwf ⟨k, hk, _⟩
    omega
  | succ f ih =>
    intro p u hwf hex
    by_cases hfix : p u = u
    · rw [findAux_succ, if_pos hfix]
      exact ⟨hwf, fun v s => Iff.rfl, root_refl hfix⟩
    · obtain ⟨k, hk, hkfix⟩ := hex
      have hk0 : k ≠ 0 := by
        rintro rfl
        exact hfix hkfix
      obtain ⟨k, rfl⟩ := Nat.exists_eq_succ_of_ne_zero hk0
      have hex' : ∃ j, j < f ∧ p (p^[j] (p u)) = p^[j] (p u) :=
        ⟨k, by omega, by rw [← Function.iterate_succ_apply]; exact hkfix⟩
      obtain ⟨hwf1, hequiv1, hroot1⟩ := ih p (p u) hwf hex'
      have hrootu : Root p u (findAux f p (p u)).2 := (root_step hfix).mp hroot1
      have hroot1' : Root (findAux f p (p u)).1 u (findAux f p (p u)).2 :=
        (hequiv1 _ _).mpr hrootu
      obtain ⟨hwf2, hequiv2⟩ := update_compress hwf1 hn hroot1'
      rw [findAux_succ, if_neg hfix]
      exact ⟨hwf2, fun v s => (hequiv2 v s).trans (hequiv1 v s), hrootu⟩

/-- Specification of `merge n p u v` for `u ≠ v`: the map stays well-formed and
the new root of `w` is `v`'s root if `w` was in `u`'s root's component, and is
unchanged otherwise. -/
theorem merge_spec {n : ℕ} {p : ℕ → ℕ} {u v ru rv : ℕ} (hwf : WF n p) (hn : 0 < n)
    (hne : u ≠ v) (hun : u < n) (hvn : v < n) (hru : Root p u ru) (hrv : Root p v rv) :
    WF n (merge n p u v) ∧
      ∀ w s, Root (merge n p u v) w s ↔
        ((Root p w ru ∧ s = rv) ∨ (Root p w s ∧ s ≠ ru)) := by
  obtain ⟨hwf1, heq1, hrv'⟩ := findAux_spec hn n p v hwf (hwf.exists_fix hn v)
  have hrv2 : (findAux n p v).2 = rv := root_unique hrv' hrv
  obtain ⟨hwf2, heq2, hru'⟩ :=
    findAux_spec hn n (findAux n p v).1 u hwf1 (hwf1.exists_fix hn u)
  have hru2 : (findAux n (findAux n p v).1 u).2 = ru :=
    root_unique ((heq1 _ _).mp hru') hru
  have hru3 : Root p ru ru := root_of_reach hru.1 hru
  have hrv3 : Root p rv rv := root_of_reach hrv.1 hrv
  have hfixu : (findAux n (findAux n p v).1 u).1 ru = ru :=
    ((heq2 _ _).mpr ((heq1 _ _).mpr hru3)).2
  have hfixv : (findAux n (findAux n p v).1 u).1 rv = rv :=
    ((heq2 _ _).mpr ((heq1 _ _).mpr hrv3)).2
  have hrun : ru < n := root_lt hwf hun hru
  have hrvn : rv < n := root_lt hwf hvn hrv
  obtain ⟨hwf3, hiff3⟩ := update_link hwf2 hn hfixu hfixv hrun hrvn
  rw [merge_def, if_neg hne, hru2, hrv2]
  refine ⟨hwf3, fun w s => ?_⟩
  rw [hiff3 w s]
  constructor
  · rintro (⟨h, rfl⟩ | ⟨h, hs⟩)
    · exact Or.inl ⟨(heq1 _ _).mp ((heq2 _ _).mp h), rfl⟩
    · exact Or.inr ⟨(heq1 _ _).mp ((heq2 _ _).mp h), hs⟩
  · rintro (⟨h, rfl⟩ | ⟨h, hs⟩)
    · exact Or.inl ⟨(heq2 _ _).mpr ((heq1 _ _).mpr h), rfl⟩
    · exact Or.inr ⟨(heq2 _ _).mpr ((heq1 _ _).mpr h), hs⟩

/-- Merging two components whose chosen vertices sit on adjacent positions
keeps every component an interval of positions. -/
theorem intv_merge {q q' : ℕ → ℕ} {u v ru rv : ℕ}
    (hadj : v = u + 1 ∨ u = v + 1)
    (hru : Root q u ru) (hrv : Root q v rv)
    (hintv : ∀ a w b r, a ≤ w → w ≤ b → Root q a r → Root q b r → Root q w r)
    (hiff : ∀ w s, Root q' w s ↔ ((Root q w ru ∧ s = rv) ∨ (Root q w s ∧ s ≠ ru))) :
    ∀ a w b r, a ≤ w → w ≤ b → Root q' a r → Root q' b r → Root q' w r := by
  intro a w b r haw hwb ha hb
  rcases (hiff a r).mp ha with ⟨haA, hr⟩ | ⟨haS, hrne⟩
  · obtain rfl : rv = r := hr.symm
    rcases (hiff b rv).mp hb with ⟨hbA, _⟩ | ⟨hbB, hBne⟩
    · exact (hiff w rv).mpr (Or.inl ⟨hintv a w b ru haw hwb haA hbA, rfl⟩)
    · rcases (show w ≤ u ∨ v ≤ w by omega) with hwu | hvw
      · exact (hiff w rv).mpr (Or.inl ⟨hintv a w u ru haw hwu haA hru, rfl⟩)
      · exact (hiff w rv).mpr (Or.inr ⟨hintv v w b rv hvw hwb hrv hbB, hBne⟩)
  · rcases (hiff b r).mp hb with ⟨hbA, hr⟩ | ⟨hbS, _⟩
    · obtain rfl : rv = r := hr.symm
      rcases (show w ≤ v ∨ u ≤ w by omega) with hwv | huw
      · exact (hiff w rv).mpr (Or.inr ⟨hintv a w v rv haw hwv haS hrv, hrne⟩)
      · exact (hiff w rv).mpr (Or.inl ⟨hintv u w b ru huw hwb hru hbA, rfl⟩)
    · exact (hiff w r).mpr (Or.inr ⟨hintv a w b r haw hwb haS hbS, hrne⟩)

/-- When components are intervals, the root of an interior position is either
the position itself or the root of one of its two neighbours. -/
theorem root_between {q : ℕ → ℕ} {c I0 A B : ℕ}
    (hintv : ∀ a w b r, a ≤ w → w ≤ b → Root q a r → Root q b r → Root q w r)
    (hc : Root q c I0) (hA : Root q (c - 1) A) (hB : Root q (c + 1) B) :
    I0 = c ∨ I0 = A ∨ I0 = B := by
  by_cases hI : I0 = c
  · exact Or.inl hI
  · have hI0 : Root q I0 I0 := root_of_reach hc.1 hc
    rcases Nat.lt_or_ge I0 c with hlt | hge
    · have hmid : Root q (c - 1) I0 :=
        hintv I0 (c - 1) c I0 (by omega) (by omega) hI0 hc
      exact Or.inr (Or.inl (root_unique hmid hA))
    · have hgt : c < I0 := by omega
      have hmid : Root q (c + 1) I0 :=
        hintv c (c + 1) I0 I0 (by omega) (by omega) hc hI0
      exact Or.inr (Or.inr (root_unique hmid hB))

end UnionFind

/-- Preservation of the sweep invariant by the local-minimum branch of `step`:
the assigned side's representative `A` receives persistence `y A - y c` (and
death `y c` in diagram mode), then the two merges hand the unified component to
the taller representative.  `q1` is the parent map after the branch's `find`
calls (root-equivalent to `st.parent`), `na` the assigned neighbour, `nb` the
other neighbour. -/
theorem saddle_good {n : ℕ} {y : ℕ → ℚ} {lo hi : ℚ} {cd : Bool} {st : SweepState}
    (hn : 0 < n) (hlo : ∀ u, u < n → lo ≤ y u) (hhi : ∀ u, u < n → y u ≤ hi)
    (hg : Good n y lo hi cd st)
    {c na nb : ℕ} (hcn : c < n) (han : na < n) (hbn : nb < n)
    (hside : (na = c - 1 ∧ nb = c + 1) ∨ (na = c + 1 ∧ nb = c - 1)) (hc1 : 1 ≤ c)
    (hyca : y c ≤ y na) (hycb : y c ≤ y nb)
    {q1 : ℕ → ℕ} (hwf1 : UnionFind.WF n q1)
    (heq1 : ∀ v s, UnionFind.Root q1 v s ↔ UnionFind.Root st.parent v s)
    {A B : ℕ} (hA : UnionFind.Root st.parent na A)
    (hB : UnionFind.Root st.parent nb B) (hyAB : y A ≤ y B)
    {death' : ℕ → ℚ}
    (hd : death' = if cd then Function.update st.death A (y c) else st.death) :
    Good n y lo hi cd
      ⟨UnionFind.merge n (UnionFind.merge n q1 na c) c nb,
        Function.update st.pers A (y A - y c), death'⟩ := by
  obtain ⟨I0, hI0⟩ := UnionFind.root_exists hg.wf hn c
  have hAn : A < n := UnionFind.root_lt hg.wf han hA
  have hyA : y na ≤ y A := hg.mono na A hA
  have hyB : y nb ≤ y B := hg.mono nb B hB
  have hclass : I0 = c ∨ I0 = A ∨ I0 = B := by
    rcases hside with ⟨hna, hnb⟩ | ⟨hna, hnb⟩
    · exact UnionFind.root_between hg.intv hI0 (hna ▸ hA) (hnb ▸ hB)
    · rcases UnionFind.root_between hg.intv hI0 (hnb ▸ hB) (hna ▸ hA) with h | h | h
      · exact Or.inl h
      · exact Or.inr (Or.inr h)
      · exact Or.inr (Or.inl h)
  have hBAI : B = A → I0 = A := by
    intro hba
    have hcc : UnionFind.Root st.parent c A := by
      rcases hside with ⟨hna, hnb⟩ | ⟨hna, hnb⟩
      · exact hg.intv (c - 1) c (c + 1) A (by omega) (by omega) (hna ▸ hA)
          (hnb ▸ hba ▸ hB)
      · exact hg.intv (c - 1) c (c + 1) A (by omega) (by omega) (hnb ▸ hba ▸ hB)
          (hna ▸ hA)
    exact UnionFind.root_unique hI0 hcc
  have hnac : na ≠ c := by omega
  have hcnb : c ≠ nb := by omega
  have hA1 : UnionFind.Root q1 na A := (heq1 _ _).mpr hA
  have hI1 : UnionFind.Root q1 c I0 := (heq1 _ _).mpr hI0
  obtain ⟨hwfm1, hiffm1⟩ := UnionFind.merge_spec hwf1 hn hnac han hcn hA1 hI1
  have hiff1 : ∀ w s, UnionFind.Root (UnionFind.merge n q1 na c) w s ↔
      ((UnionFind.Root st.parent w A ∧ s = I0) ∨
        (UnionFind.Root st.parent w s ∧ s ≠ A)) := by
    intro w s
    rw [hiffm1 w s]
    constructor
    · rintro (⟨h, hs⟩ | ⟨h, hs⟩)
      · exact Or.inl ⟨(heq1 _ _).mp h, hs⟩
      · exact Or.inr ⟨(heq1 _ _).mp h, hs⟩
    · rintro (⟨h, hs⟩ | ⟨h, hs⟩)
      · exact Or.inl ⟨(heq1 _ _).mpr h, hs⟩
      · exact Or.inr ⟨(heq1 _ _).mpr h, hs⟩
  have hm1c : UnionFind.Root (UnionFind.merge n q1 na c) c I0 := by
    rw [hiff1]
    by_cases hIA : I0 = A
    · exact Or.inl ⟨hIA ▸ hI0, rfl⟩
    · exact Or.inr ⟨hI0, hIA⟩
  obtain ⟨B', hB'⟩ := UnionFind.root_exists hwfm1 hn nb
  have hB'cases : (B = A ∧ B' = I0) ∨ B' = B := by
    rcases (hiff1 nb B').mp hB' with ⟨h, hs⟩ | ⟨h, _⟩
    · exact Or.inl ⟨UnionFind.root_unique hB h, hs⟩
    · exact Or.inr (UnionFind.root_unique h hB)
  have hyAB' : y A ≤ y B' := by
    rcases hB'cases with ⟨hba, hbi⟩ | hbb
    · rw [hbi, hBAI hba]
    · rw [hbb]
      exact hyAB
  have hyI0B' : y I0 ≤ y B' := by
    rcases hclass with h | h | h
    · rcases hB'cases with ⟨hba, hbi⟩ | hbb
      · rw [hbi]
      · rw [h, hbb]
        exact le_trans hycb hyB
    · rw [h]
      exact hyAB'
    · rcases hB'cases with ⟨hba, hbi⟩ | hbb
      · rw [hbi]
      · rw [h, hbb]
  obtain ⟨hwfm2, hiffm2⟩ := UnionFind.merge_spec hwfm1 hn hcnb hcn hbn hm1c hB'
  refine ⟨hwfm2, ?_, ?_, ?_, ?_, ?_⟩
  · intro v s h
    rcases (hiffm2 v s).mp h with ⟨h1, hs⟩ | ⟨h1, hsne⟩
    · rw [hs]
      rcases (hiff1 v I0).mp h1 with ⟨h2, _⟩ | ⟨h2, _⟩
      · exact le_trans (hg.mono v A h2) hyAB'
      · exact le_trans (hg.mono v I0 h2) hyI0B'
    · rcases (hiff1 v s).mp h1 with ⟨h2, hsi⟩ | ⟨h2, _⟩
      · exact absurd hsi hsne
      · exact hg.mono v s h2
  · have hadj1 : c = na + 1 ∨ na = c + 1 := by
      rcases hside with ⟨h1, _⟩ | ⟨h1, _⟩ <;> omega
    have hadj2 : nb = c + 1 ∨ c = nb + 1 := by
      rcases hside with ⟨_, h2⟩ | ⟨_, h2⟩ <;> omega
    have hintv1 := UnionFind.intv_merge hadj1 hA hI0 hg.intv hiff1
    exact UnionFind.intv_merge hadj2 hm1c hB' hintv1 hiffm2
  · intro u
    show 0 ≤ Function.update st.pers A (y A - y c) u
    by_cases hu : u = A
    · rw [hu, Function.update_same]
      have h1 : y c ≤ y A := le_trans hyca hyA
      linarith
    · rw [Function.update_noteq hu]
      exact hg.nonneg u
  · intro u
    show Function.update st.pers A (y A - y c) u ≤ hi - lo
    by_cases hu : u = A
    · rw [hu, Function.update_same]
      have h1 : y A ≤ hi := hhi A hAn
      have h2 : lo ≤ y c := hlo c hcn
      linarith
    · rw [Function.update_noteq hu]
      exact hg.upper u
  · intro hcd u
    show Function.update st.pers A (y A - y c) u = y u - death' u
    rw [hd, if_pos hcd]
    by_cases hu : u = A
    · rw [hu, Function.update_same, Function.update_same]
    · rw [Function.update_noteq hu, Function.update_noteq hu]
      exact hg.link hcd u

/-- Preservation of the sweep invariant by the regular-point branch of `step`:
the current sample `c` is merged into the neighbour `nb` whose representative
`B` is the taller of the two; no persistence is recorded.  `na` is the other
neighbour with representative `A`. -/
theorem regular_good {n : ℕ} {y : ℕ → ℚ} {lo hi : ℚ} {cd : Bool} {st : SweepState}
    (hn : 0 < n) (hg : Good n y lo hi cd st)
    {c na nb : ℕ} (hcn : c < n) (_han : na < n) (hbn : nb < n)
    (hside : (na = c - 1 ∧ nb = c + 1) ∨ (na = c + 1 ∧ nb = c - 1)) (hc1 : 1 ≤ c)
    (hyc : y c ≤ y na ∨ y c ≤ y nb)
    {q1 : ℕ → ℕ} (hwf1 : UnionFind.WF n q1)
    (heq1 : ∀ v s, UnionFind.Root q1 v s ↔ UnionFind.Root st.parent v s)
    {A B : ℕ} (hA : UnionFind.Root st.parent na A)
    (hB : UnionFind.Root st.parent nb B) (hyAB : y A ≤ y B) :
    Good n y lo hi cd ⟨UnionFind.merge n q1 c nb, st.pers, st.death⟩ := by
  obtain ⟨I0, hI0⟩ := UnionFind.root_exists hg.wf hn c
  have hyA : y na ≤ y A := hg.mono na A hA
  have hyB : y nb ≤ y B := hg.mono nb B hB
  have hclass : I0 = c ∨ I0 = A ∨ I0 = B := by
    rcases hside with ⟨hna, hnb⟩ | ⟨hna, hnb⟩
    · exact UnionFind.root_between hg.intv hI0 (hna ▸ hA) (hnb ▸ hB)
    · rcases UnionFind.root_between hg.intv hI0 (hnb ▸ hB) (hna ▸ hA) with h | h | h
      · exact Or.inl h
      · exact Or.inr (Or.inr h)
      · exact Or.inr (Or.inl h)
  have hcnb : c ≠ nb := by omega
  have hI1 : UnionFind.Root q1 c I0 := (heq1 _ _).mpr hI0
  have hB1 : UnionFind.Root q1 nb B := (heq1 _ _).mpr hB
  obtain ⟨hwfm, hiffm⟩ := UnionFind.merge_spec hwf1 hn hcnb hcn hbn hI1 hB1
  have hiffc : ∀ w s, UnionFind.Root (UnionFind.merge n q1 c nb) w s ↔
      ((UnionFind.Root st.parent w I0 ∧ s = B) ∨
        (UnionFind.Root st.parent w s ∧ s ≠ I0)) := by
    intro w s
    rw [hiffm w s]
    constructor
    · rintro (⟨h, hs⟩ | ⟨h, hs⟩)
      · exact Or.inl ⟨(heq1 _ _).mp h, hs⟩
      · exact Or.inr ⟨(heq1 _ _).mp h, hs⟩
    · rintro (⟨h, hs⟩ | ⟨h, hs⟩)
      · exact Or.inl ⟨(heq1 _ _).mpr h, hs⟩
      · exact Or.inr ⟨(heq1 _ _).mpr h, hs⟩
  have hyI0B : y I0 ≤ y B := by
    rcases hclass with h | h | h
    · rw [h]
      rcases hyc with h2 | h2
      · exact le_trans h2 (le_trans hyA hyAB)
      · exact le_trans h2 hyB
    · rw [h]
      exact hyAB
    · rw [h]
  refine ⟨hwfm, ?_, ?_, fun u => hg.nonneg u, fun u => hg.upper u,
    fun hcd u => hg.link hcd u⟩
  · intro v s h
    rcases (hiffc v s).mp h with ⟨h1, hs⟩ | ⟨h1, _⟩
    · rw [hs]
      exact le_trans (hg.mono v I0 h1) hyI0B
    · exact hg.mono v s h1
  · have hadj : nb = c + 1 ∨ c = nb + 1 := by
      rcases hside with ⟨_, h2⟩ | ⟨_, h2⟩ <;> omega
    exact UnionFind.intv_merge hadj hI0 hB hg.intv hiffc

/-- One sweep iteration preserves the sweep invariant, whatever index is
processed. -/
theorem step_good {n : ℕ} {y : ℕ → ℚ} {lo hi : ℚ} {cd : Bool} {st : SweepState}
    (hn : 0 < n) (hlo : ∀ u, u < n → lo ≤ y u) (hhi : ∀ u, u < n → y u ≤ hi)
    (hg : Good n y lo hi cd st) (index : ℕ) :
    Good n y lo hi cd (step n y cd st index) := by
  unfold step
  by_cases hint : 1 ≤ index ∧ index + 1 ≤ n - 1
  case neg => rw [if_neg hint]; exact hg
  rw [if_pos hint]
  dsimp only
  have hlin : index - 1 < n := by omega
  have hin : index < n := by omega
  have hrin : index + 1 < n := by omega
  obtain ⟨hw1, he1, hL⟩ :=
    UnionFind.findAux_spec hn n st.parent (index - 1) hg.wf
      (hg.wf.exists_fix hn (index - 1))
  set F1 := UnionFind.findAux n st.parent (index - 1) with hF1
  obtain ⟨hw2, he2, hR2⟩ :=
    UnionFind.findAux_spec hn n F1.1 (index + 1) hw1 (hw1.exists_fix hn (index + 1))
  set F2 := UnionFind.findAux n F1.1 (index + 1) with hF2
  have he2' : ∀ v s, UnionFind.Root F2.1 v s ↔ UnionFind.Root st.parent v s :=
    fun v s => (he2 v s).trans (he1 v s)
  have hR : UnionFind.Root st.parent (index + 1) F2.2 := (he1 _ _).mp hR2
  by_cases hsad : y (index - 1) ≥ y index ∧ y index ≤ y (index + 1)
  · rw [if_pos hsad]
    by_cases hcmp : y F1.2 < y F2.2
    · rw [if_pos hcmp]
      obtain ⟨hw3, he3, h3⟩ :=
        UnionFind.findAux_spec hn n F2.1 (index - 1) hw2
          (hw2.exists_fix hn (index - 1))
      set A1 := UnionFind.findAux n F2.1 (index - 1) with hA1d
      have hA1L : A1.2 = F1.2 :=
        UnionFind.root_unique ((he2' _ _).mp h3) hL
      obtain ⟨hw4, he4, h4⟩ :=
        UnionFind.findAux_spec hn n A1.1 (index - 1) hw3
          (hw3.exists_fix hn (index - 1))
      set A2 := UnionFind.findAux n A1.1 (index - 1) with hA2d
      have he4' : ∀ v s, UnionFind.Root A2.1 v s ↔ UnionFind.Root st.parent v s :=
        fun v s => (he4 v s).trans ((he3 v s).trans (he2' v s))
      have hA2L : A2.2 = F1.2 :=
        UnionFind.root_unique ((he2' _ _).mp ((he3 _ _).mp h4)) hL
      rw [hA1L, hA2L]
      by_cases hcd : cd = true
      · rw [if_pos hcd]
        obtain ⟨hw5, he5, h5⟩ :=
          UnionFind.findAux_spec hn n A2.1 (index - 1) hw4
            (hw4.exists_fix hn (index - 1))
        set A3 := UnionFind.findAux n A2.1 (index - 1) with hA3d
        have he5' : ∀ v s, UnionFind.Root A3.1 v s ↔ UnionFind.Root st.parent v s :=
          fun v s => (he5 v s).trans (he4' v s)
        have hA3L : A3.2 = F1.2 :=
          UnionFind.root_unique ((he4' _ _).mp h5) hL
        rw [hA3L]
        exact saddle_good hn hlo hhi hg hin hlin hrin (Or.inl ⟨rfl, rfl⟩)
          hint.1 hsad.1 hsad.2 hw5 he5' hL hR (le_of_lt hcmp)
          (by rw [if_pos hcd])
      · rw [if_neg hcd]
        exact saddle_good hn hlo hhi hg hin hlin hrin (Or.inl ⟨rfl, rfl⟩)
          hint.1 hsad.1 hsad.2 hw4 he4' hL hR (le_of_lt hcmp)
          (by rw [if_neg hcd])
    · rw [if_neg hcmp]
      obtain ⟨hw3, he3, h3⟩ :=
        UnionFind.findAux_spec hn n F2.1 (index + 1) hw2
          (hw2.exists_fix hn (index + 1))
      set A1 := UnionFind.findAux n F2.1 (index + 1) with hA1d
      have hA1R : A1.2 = F2.2 :=
        UnionFind.root_unique ((he2' _ _).mp h3) hR
      obtain ⟨hw4, he4, h4⟩ :=
        UnionFind.findAux_spec hn n A1.1 (index + 1) hw3
          (hw3.exists_fix hn (index + 1))
      set A2 := UnionFind.findAux n A1.1 (index + 1) with hA2d
      have he4' : ∀ v s, UnionFind.Root A2.1 v s ↔ UnionFind.Root st.parent v s :=
        fun v s => (he4 v s).trans ((he3 v s).trans (he2' v s))
      have hA2R : A2.2 = F2.2 :=
        UnionFind.root_unique ((he2' _ _).mp ((he3 _ _).mp h4)) hR
      rw [hA1R, hA2R]
      by_cases hcd : cd = true
      · rw [if_pos hcd]
        obtain ⟨hw5, he5, h5⟩ :=
          UnionFind.findAux_spec hn n A2.1 (index + 1) hw4
            (hw4.exists_fix hn (index + 1))
        set A3 := UnionFind.findAux n A2.1 (index + 1) with hA3d
        have he5' : ∀ v s, UnionFind.Root A3.1 v s ↔ UnionFind.Root st.parent v s :=
          fun v s => (he5 v s).trans (he4' v s)
        have hA3R : A3.2 = F2.2 :=
          UnionFind.root_unique ((he4' _ _).mp h5) hR
        rw [hA3R]
        exact saddle_good hn hlo hhi hg hin hrin hlin (Or.inr ⟨rfl, rfl⟩)
          hint.1 hsad.2 hsad.1 hw5 he5' hR hL (not_lt.mp hcmp)
          (by rw [if_pos hcd])
      · rw [if_neg hcd]
        exact saddle_good hn hlo hhi hg hin hrin hlin (Or.inr ⟨rfl, rfl⟩)
          hint.1 hsad.2 hsad.1 hw4 he4' hR hL (not_lt.mp hcmp)
          (by rw [if_neg hcd])
  · rw [if_neg hsad]
    by_cases hmax : y index > y (index - 1) ∧ y index > y (index + 1)
    · rw [if_neg (not_not_intro hmax)]
      exact hg
    · rw [if_pos hmax]
      have hyc : y index ≤ y (index - 1) ∨ y index ≤ y (index + 1) := by
        rcases not_and_or.mp hmax with h | h
        · exact Or.inl (not_lt.mp h)
        · exact Or.inr (not_lt.mp h)
      by_cases hcmp : y F1.2 < y F2.2
      · rw [if_pos hcmp]
        exact regular_good hn hg hin hlin hrin (Or.inl ⟨rfl, rfl⟩) hint.1 hyc
          hw2 he2' hL hR (le_of_lt hcmp)
      · rw [if_neg hcmp]
        exact regular_good hn hg hin hrin hlin (Or.inr ⟨rfl, rfl⟩) hint.1
          hyc.symm hw2 he2' hR hL (not_lt.mp hcmp)

theorem sweepLE_le {y : ℕ → ℚ} {i j : ℕ} (h : sweepLE y i j) : y j ≤ y i := by
  rcases h with h | ⟨h, _⟩
  · exact le_of_lt h
  · exact le_of_eq h.symm

theorem sweepLE_total (y : ℕ → ℚ) (i j : ℕ) : sweepLE y i j ∨ sweepLE y j i := by
  rcases lt_trichotomy (y i) (y j) with h | h | h
  · exact Or.inr (Or.inl h)
  · rcases Nat.le_total i j with hij | hij
    · exact Or.inl (Or.inr ⟨h, hij⟩)
    · exact Or.inr (Or.inr ⟨h.symm, hij⟩)
  · exact Or.inl (Or.inl h)

theorem sweepLE_trans (y : ℕ → ℚ) (a b c : ℕ) (h1 : sweepLE y a b)
    (h2 : sweepLE y b c) : sweepLE y a c := by
  rcases h1 with h1 | ⟨h1e, h1le⟩ <;> rcases h2 with h2 | ⟨h2e, h2le⟩
  · exact Or.inl (lt_trans h2 h1)
  · exact Or.inl (h2e ▸ h1)
  · exact Or.inl (h1e.symm ▸ h2)
  · exact Or.inr ⟨h1e.trans h2e, le_trans h1le h2le⟩

theorem sweepIndices_perm (y : ℕ → ℚ) (n : ℕ) :
    (sweepIndices y n).Perm (List.range n) :=
  List.perm_insertionSort _ _

theorem sweepIndices_mem {y : ℕ → ℚ} {n j : ℕ} : j ∈ sweepIndices y n ↔ j < n := by
  rw [(sweepIndices_perm y n).mem_iff, List.mem_range]

theorem sweepIndices_length (y : ℕ → ℚ) (n : ℕ) :
    (sweepIndices y n).length = n := by
  rw [(sweepIndices_perm y n).length_eq, List.length_range]

theorem sweepIndices_sorted (y : ℕ → ℚ) (n : ℕ) :
    List.Pairwise (sweepLE y) (sweepIndices y n) := by
  haveI : IsTotal ℕ (sweepLE y) := ⟨sweepLE_total y⟩
  haveI : IsTrans ℕ (sweepLE y) := ⟨sweepLE_trans y⟩
  exact List.sorted_insertionSort _ _

theorem sweepIndices_cons {y : ℕ → ℚ} {n : ℕ} (hn : 0 < n) :
    ∃ a t, sweepIndices y n = a :: t := by
  cases hl : sweepIndices y n with
  | nil =>
    have hlen := sweepIndices_length y n
    rw [hl] at hlen
    simp at hlen
    omega
  | cons a t => exact ⟨a, t, rfl⟩

/-- The first swept index is a position of the global maximum height. -/
theorem head_y_max {y : ℕ → ℚ} {n : ℕ} (hn : 0 < n) :
    (sweepIndices y n).headD 0 < n ∧
      ∀ j, j < n → y j ≤ y ((sweepIndices y n).headD 0) := by
  obtain ⟨a, t, hl⟩ := sweepIndices_cons (y := y) hn
  rw [hl]
  simp only [List.headD_cons]
  constructor
  · have ha : a ∈ sweepIndices y n := by
      rw [hl]
      exact List.mem_cons_self a t
    exact sweepIndices_mem.mp ha
  · intro j hj
    have hjmem : j ∈ sweepIndices y n := sweepIndices_mem.mpr hj
    rw [hl] at hjmem
    rcases List.mem_cons.mp hjmem with rfl | hjt
    · exact le_rfl
    · have hp := sweepIndices_sorted y n
      rw [hl] at hp
      exact sweepLE_le ((List.pairwise_cons.mp hp).1 j hjt)

/-- The first swept index is the leftmost position of the global maximum. -/
theorem head_leftmost {y : ℕ → ℚ} {n : ℕ} (hn : 0 < n) {i0 : ℕ} (hi0 : i0 < n)
    (hmax : ∀ j, j < n → y j ≤ y i0) (hleft : ∀ j, j < i0 → y j < y i0) :
    (sweepIndices y n).headD 0 = i0 := by
  obtain ⟨h0n, h0max⟩ := head_y_max (y := y) hn
  have hya : y ((sweepIndices y n).headD 0) = y i0 :=
    le_antisymm (hmax _ h0n) (h0max i0 hi0)
  obtain ⟨a, t, hl⟩ := sweepIndices_cons (y := y) hn
  rw [hl] at hya ⊢
  simp only [List.headD_cons] at hya ⊢
  have hi0mem : i0 ∈ sweepIndices y n := sweepIndices_mem.mpr hi0
  rw [hl] at hi0mem
  rcases List.mem_cons.mp hi0mem with rfl | hi0t
  · rfl
  · have hp := sweepIndices_sorted y n
    rw [hl] at hp
    have hle := (List.pairwise_cons.mp hp).1 i0 hi0t
    have hai : a ≤ i0 := by
      rcases hle with h | ⟨_, h⟩
      · exact absurd hya (ne_of_gt h)
      · exact h
    rcases Nat.lt_or_ge a i0 with h | h
    · exact absurd hya (ne_of_lt (hleft a h))
    · omega

/-- The last swept index is a position of the global minimum height. -/
theorem last_y_min {y : ℕ → ℚ} {n : ℕ} (hn : 0 < n) :
    (sweepIndices y n).getLastD 0 < n ∧
      ∀ j, j < n → y ((sweepIndices y n).getLastD 0) ≤ y j := by
  have hgl : (sweepIndices y n).getLastD 0 = (sweepIndices y n).reverse.headD 0 := by
    rw [List.getLastD_eq_getLast?, List.headD_eq_head?_getD, List.head?_reverse]
  have hrev : List.Pairwise (fun a b => sweepLE y b a)
      (sweepIndices y n).reverse :=
    List.pairwise_reverse.mpr (sweepIndices_sorted y n)
  obtain ⟨a, t, hl⟩ : ∃ a t, (sweepIndices y n).reverse = a :: t := by
    cases hl : (sweepIndices y n).reverse with
    | nil =>
      have hlen : (sweepIndices y n).reverse.length = n := by
        rw [List.length_reverse, sweepIndices_length]
      rw [hl] at hlen
      simp at hlen
      omega
    | cons a t => exact ⟨a, t, rfl⟩
  rw [hgl, hl]
  simp only [List.headD_cons]
  constructor
  · have ha : a ∈ sweepIndices y n := by
      rw [← List.mem_reverse, hl]
      exact List.mem_cons_self a t
    exact sweepIndices_mem.mp ha
  · intro j hj
    have hjmem : j ∈ (sweepIndices y n).reverse :=
      List.mem_reverse.mpr (sweepIndices_mem.mpr hj)
    rw [hl] at hjmem
    rcases List.mem_cons.mp hjmem with rfl | hjt
    · exact le_rfl
    · rw [hl] at hrev
      exact sweepLE_le ((List.pairwise_cons.mp hrev).1 j hjt)

/-- The whole sweep preserves the invariant. -/
theorem runSweep_good {n : ℕ} {y : ℕ → ℚ} {lo hi : ℚ} {cd : Bool} (hn : 0 < n)
    (hlo : ∀ u, u < n → lo ≤ y u) (hhi : ∀ u, u < n → y u ≤ hi) :
    Good n y lo hi cd (runSweep n y cd) := by
  have hinit : Good n y lo hi cd (initState y) := by
    refine ⟨⟨fun u hu => hu, fun u _ => rfl, ⟨fun _ => 0, fun u hu => absurd rfl hu⟩⟩,
      ?_, ?_, fun u => le_rfl, ?_, fun _ u => by simp [initState]⟩
    · intro v r h
      obtain ⟨⟨k, hk⟩, _⟩ := h
      have : r = v := by rw [← hk, Function.iterate_fixed rfl]
      rw [this]
    · intro a w b r haw hwb ha hb
      obtain ⟨⟨k, hk⟩, hfix⟩ := ha
      have hra : r = a := by rw [← hk, Function.iterate_fixed rfl]
      obtain ⟨⟨k', hk'⟩, _⟩ := hb
      have hrb : r = b := by rw [← hk', Function.iterate_fixed rfl]
      have hwa : w = a := by omega
      rw [hwa, ← hra]
      exact ⟨⟨0, rfl⟩, hfix⟩
    · intro u
      have h1 : lo ≤ y 0 := hlo 0 hn
      have h2 : y 0 ≤ hi := hhi 0 hn
      show (0 : ℚ) ≤ hi - lo
      linarith
  have hfold : ∀ (l : List ℕ) (s : SweepState), Good n y lo hi cd s →
      Good n y lo hi cd (l.foldl (step n y cd) s) := by
    intro l
    induction l with
    | nil => exact fun s h => h
    | cons a t ih => exact fun s h => ih _ (step_good hn hlo hhi h a)
  exact hfold _ _ hinit

theorem finalState_pers_gmax {n : ℕ} {y : ℕ → ℚ} {cd : Bool} (hn : 0 < n) :
    (finalState n y cd).pers ((sweepIndices y n).headD 0) =
      y ((sweepIndices y n).headD 0) - y ((sweepIndices y n).getLastD 0) := by
  unfold finalState
  rw [if_pos hn]
  exact Function.update_same _ _ _

theorem finalState_death_gmax {n : ℕ} {y : ℕ → ℚ} (hn : 0 < n) :
    (finalState n y true).death ((sweepIndices y n).headD 0) =
      y ((sweepIndices y n).getLastD 0) := by
  unfold finalState
  rw [if_pos hn]
  show Function.update (runSweep n y true).death ((sweepIndices y n).headD 0)
      (y ((sweepIndices y n).getLastD 0)) ((sweepIndices y n).headD 0) =
    y ((sweepIndices y n).getLastD 0)
  exact Function.update_same _ _ _

theorem finalState_pers_nonneg {n : ℕ} {y : ℕ → ℚ} {cd : Bool} (hn : 0 < n)
    (u : ℕ) : 0 ≤ (finalState n y cd).pers u := by
  have hgood : Good n y (y ((sweepIndices y n).getLastD 0))
      (y ((sweepIndices y n).headD 0)) cd (runSweep n y cd) :=
    runSweep_good hn (fun v hv => (last_y_min hn).2 v hv)
      (fun v hv => (head_y_max hn).2 v hv)
  unfold finalState
  rw [if_pos hn]
  show 0 ≤ Function.update (runSweep n y cd).pers _ _ u
  by_cases hu : u = (sweepIndices y n).headD 0
  · rw [hu, Function.update_same]
    have := (head_y_max (y := y) hn).2 _ (last_y_min (y := y) hn).1
    linarith
  · rw [Function.update_noteq hu]
    exact hgood.nonneg u

theorem finalState_pers_le {n : ℕ} {y : ℕ → ℚ} {cd : Bool} (hn : 0 < n)
    (u : ℕ) : (finalState n y cd).pers u ≤
      y ((sweepIndices y n).headD 0) - y ((sweepIndices y n).getLastD 0) := by
  have hgood : Good n y (y ((sweepIndices y n).getLastD 0))
      (y ((sweepIndices y n).headD 0)) cd (runSweep n y cd) :=
    runSweep_good hn (fun v hv => (last_y_min hn).2 v hv)
      (fun v hv => (head_y_max hn).2 v hv)
  unfold finalState
  rw [if_pos hn]
  show Function.update (runSweep n y cd).pers _ _ u ≤ _
  by_cases hu : u = (sweepIndices y n).headD 0
  · rw [hu, Function.update_same]
  · rw [Function.update_noteq hu]
    exact hgood.upper u

theorem finalState_link {n : ℕ} {y : ℕ → ℚ} (hn : 0 < n) (u : ℕ) :
    (finalState n y true).pers u = y u - (finalState n y true).death u := by
  have hgood : Good n y (y ((sweepIndices y n).getLastD 0))
      (y ((sweepIndices y n).headD 0)) true (runSweep n y true) :=
    runSweep_good hn (fun v hv => (last_y_min hn).2 v hv)
      (fun v hv => (head_y_max hn).2 v hv)
  unfold finalState
  rw [if_pos hn]
  show Function.update (runSweep n y true).pers ((sweepIndices y n).headD 0)
      (y ((sweepIndices y n).headD 0) - y ((sweepIndices y n).getLastD 0)) u =
    y u - Function.update (runSweep n y true).death ((sweepIndices y n).headD 0)
      (y ((sweepIndices y n).getLastD 0)) u
  by_cases hu : u = (sweepIndices y n).headD 0
  · rw [hu, Function.update_same, Function.update_same]
  · rw [Function.update_noteq hu, Function.update_noteq hu]
    exact hgood.link rfl u

theorem map_range_getD {α : Type} {f : ℕ → α} {n i : ℕ} (h : i < n) (d : α) :
    ((List.range n).map f).getD i d = f i := by
  rw [List.getD_eq_getElem?_getD, List.getElem?_map, List.getElem?_range h]
  rfl

theorem getD_mem {l : List ℚ} {i : ℕ} (h : i < l.length) (d : ℚ) :
    l.getD i d ∈ l := by
  rw [List.getD_eq_getElem _ _ h]
  exact List.getElem_mem h

theorem le_foldl_max (t : List ℚ) (a : ℚ) : a ≤ t.foldl max a := by
  induction t generalizing a with
  | nil => exact le_rfl
  | cons b t ih => exact le_trans (le_max_left a b) (ih (max a b))

theorem mem_le_foldl_max {x : ℚ} (t : List ℚ) (a : ℚ) (hx : x ∈ t) :
    x ≤ t.foldl max a := by
  induction t generalizing a with
  | nil => exact absurd hx (List.not_mem_nil x)
  | cons b t ih =>
    rcases List.mem_cons.mp hx with rfl | hxt
    · exact le_trans (le_max_right a x) (le_foldl_max t (max a x))
    · exact ih (max a b) hxt

theorem foldl_max_mem (t : List ℚ) (a : ℚ) : t.foldl max a ∈ a :: t := by
  induction t generalizing a with
  | nil => exact List.mem_cons_self a []
  | cons b t ih =>
    rw [List.foldl_cons]
    rcases List.mem_cons.mp (ih (max a b)) with he | ht
    · rcases max_choice a b with h | h
      · rw [he, h]
        exact List.mem_cons_self a (b :: t)
      · rw [he, h]
        exact List.mem_cons.mpr (Or.inr (List.mem_cons_self b t))
    · exact List.mem_cons.mpr (Or.inr (List.mem_cons.mpr (Or.inr ht)))

theorem le_maxOf {l : List ℚ} {x : ℚ} (hx : x ∈ l) : x ≤ maxOf l := by
  cases l with
  | nil => exact absurd hx (List.not_mem_nil x)
  | cons a t =>
    rcases List.mem_cons.mp hx with rfl | hxt
    · exact le_foldl_max t x
    · exact mem_le_foldl_max t a hxt

theorem maxOf_mem {l : List ℚ} (hl : l ≠ []) : maxOf l ∈ l := by
  cases l with
  | nil => exact absurd rfl hl
  | cons a t => exact foldl_max_mem t a

theorem foldl_min_le (t : List ℚ) (a : ℚ) : t.foldl min a ≤ a := by
  induction t generalizing a with
  | nil => exact le_rfl
  | cons b t ih => exact le_trans (ih (min a b)) (min_le_left a b)

theorem foldl_min_le_mem {x : ℚ} (t : List ℚ) (a : ℚ) (hx : x ∈ t) :
    t.foldl min a ≤ x := by
  induction t generalizing a with
  | nil => exact absurd hx (List.not_mem_nil x)
  | cons b t ih =>
    rcases List.mem_cons.mp hx with rfl | hxt
    · exact le_trans (foldl_min_le t (min a x)) (min_le_right a x)
    · exact ih (min a b) hxt

theorem foldl_min_mem (t : List ℚ) (a : ℚ) : t.foldl min a ∈ a :: t := by
  induction t generalizing a with
  | nil => exact List.mem_cons_self a []
  | cons b t ih =>
    rw [List.foldl_cons]
    rcases List.mem_cons.mp (ih (min a b)) with he | ht
    · rcases min_choice a b with h | h
      · rw [he, h]
        exact List.mem_cons_self a (b :: t)
      · rw [he, h]
        exact List.mem_cons.mpr (Or.inr (List.mem_cons_self b t))
    · exact List.mem_cons.mpr (Or.inr (List.mem_cons.mpr (Or.inr ht)))

theorem minOf_le {l : List ℚ} {x : ℚ} (hx : x ∈ l) : minOf l ≤ x := by
  cases l with
  | nil => exact absurd hx (List.not_mem_nil x)
  | cons a t =>
    rcases List.mem_cons.mp hx with rfl | hxt
    · exact foldl_min_le t x
    · exact foldl_min_le_mem t a hxt

theorem minOf_mem {l : List ℚ} (hl : l ≠ []) : minOf l ∈ l := by
  cases l with
  | nil => exact absurd rfl hl
  | cons a t => exact foldl_min_mem t a

theorem toPairs_length (rows : List (List ℚ)) :
    (toPairs rows).length = rows.length :=
  List.length_map _ _

theorem fit_transform_invalid (cd : Bool) (k : Option ℕ) (rows : List (List ℚ))
    (h : rows = [] ∨ ∃ r ∈ rows, r.length ≠ 2) :
    fit_transform cd k rows = .error .invalidInput := by
  have hval : rows = [] ∨ ¬ ∀ r ∈ rows, r.length = 2 := by
    rcases h with h | ⟨r, hr, hne⟩
    · exact Or.inl h
    · exact Or.inr (fun hall => hne (hall r hr))
  unfold fit_transform
  rw [if_pos hval]

theorem fit_transform_valid_none {cd : Bool} {rows : List (List ℚ)}
    (h1 : rows ≠ []) (h2 : ∀ r ∈ rows, r.length = 2) :
    fit_transform cd none rows =
      .ok ⟨(List.range (toPairs rows).length).map
            (fun i => (xOf (toPairs rows) i,
              (finalState (toPairs rows).length (yOf (toPairs rows)) cd).pers i)),
          if cd then
            some ((List.range (toPairs rows).length).map
              fun i => (yOf (toPairs rows) i,
                (finalState (toPairs rows).length (yOf (toPairs rows)) cd).death i))
          else none,
          []⟩ := by
  have hval : ¬ (rows = [] ∨ ¬ ∀ r ∈ rows, r.length = 2) := by
    push_neg
    exact ⟨h1, h2⟩
  unfold fit_transform
  rw [if_neg hval]

theorem fit_transform_valid_some {cd : Bool} {k : ℕ} {rows : List (List ℚ)}
    (h1 : rows ≠ []) (h2 : ∀ r ∈ rows, r.length = 2) :
    fit_transform cd (some k) rows =
      applyFilter (toPairs rows).length (xOf (toPairs rows))
        (finalState (toPairs rows).length (yOf (toPairs rows)) cd).pers
        (if cd then
          some ((List.range (toPairs rows).length).map
            fun i => (yOf (toPairs rows) i,
              (finalState (toPairs rows).length (yOf (toPairs rows)) cd).death i))
        else none) k := by
  have hval : ¬ (rows = [] ∨ ¬ ∀ r ∈ rows, r.length = 2) := by
    push_neg
    exact ⟨h1, h2⟩
  unfold fit_transform
  rw [if_neg hval]

theorem pyIdx_nat_ok {l : List ℚ} {i : ℕ} (h : i < l.length) :
    pyIdx l (i : ℤ) = .ok (l.getD i 0) := by
  unfold pyIdx
  dsimp only
  rw [if_neg (show ¬ (i : ℤ) < 0 by omega),
    if_pos (show 0 ≤ (i : ℤ) ∧ (i : ℤ) < (l.length : ℤ) by omega)]
  rw [Int.toNat_ofNat]

theorem pyIdx_ok_mem {l : List ℚ} {i : ℤ} {v : ℚ} (h : pyIdx l i = .ok v) :
    v ∈ l := by
  unfold pyIdx at h
  dsimp only at h
  set j : ℤ := if i < 0 then (l.length : ℤ) + i else i with hj
  by_cases hc : 0 ≤ j ∧ j < (l.length : ℤ)
  · rw [if_pos hc] at h
    have hv : l.getD j.toNat 0 = v := by injection h
    have hlt : j.toNat < l.length := by omega
    rw [← hv]
    exact getD_mem hlt 0
  · rw [if_neg hc] at h
    cases h

theorem sortedDesc_mem {l : List ℚ} {x : ℚ} : x ∈ sortedDesc l ↔ x ∈ l := by
  unfold sortedDesc
  rw [List.mem_reverse, (List.perm_insertionSort _ l).mem_iff]

theorem sortedDesc_length (l : List ℚ) : (sortedDesc l).length = l.length := by
  unfold sortedDesc
  rw [List.length_reverse, List.length_insertionSort]

theorem persListOf_mem {n : ℕ} {pers : ℕ → ℚ} {x : ℚ} :
    x ∈ persListOf n pers ↔ ∃ i, i < n ∧ pers i = x := by
  unfold persListOf
  rw [List.mem_map]
  constructor
  · rintro ⟨i, hi, rfl⟩
    exact ⟨i, List.mem_range.mp hi, rfl⟩
  · rintro ⟨i, hi, rfl⟩
    exact ⟨i, List.mem_range.mpr hi, rfl⟩

/-- The last entry of the descending sort is a lower bound of the list. -/
theorem sortedDesc_last_le {l : List ℚ} (hl : l ≠ []) {x : ℚ} (hx : x ∈ l) :
    (sortedDesc l).getD (l.length - 1) 0 ≤ x := by
  unfold sortedDesc
  obtain ⟨a, t, hs⟩ : ∃ a t, l.insertionSort (· ≤ ·) = a :: t := by
    cases hs : l.insertionSort (· ≤ ·) with
    | nil =>
      have hll := List.length_insertionSort (r := fun p q : ℚ => p ≤ q) l
      rw [hs] at hll
      simp at hll
      exact absurd (List.length_eq_zero.mp hll.symm) hl
    | cons a t => exact ⟨a, t, rfl⟩
  have hlen : t.length + 1 = l.length := by
    have hll := List.length_insertionSort (r := fun p q : ℚ => p ≤ q) l
    rw [hs] at hll
    simpa using hll
  have hget : ((a :: t).reverse).getD (l.length - 1) 0 = a := by
    rw [List.reverse_cons]
    have hll : l.length - 1 = t.reverse.length := by
      rw [List.length_reverse]
      omega
    rw [hll, List.getD_append_right _ _ _ _ (le_refl _), Nat.sub_self,
      List.getD_cons_zero]
  rw [hs, hget]
  -- a is the head of the ascending sort, hence a lower bound
  have hsorted := List.sorted_insertionSort (fun p q : ℚ => p ≤ q) l
  rw [hs] at hsorted
  have hxmem : x ∈ a :: t := by
    rw [← hs, (List.perm_insertionSort _ l).mem_iff]
    exact hx
  rcases List.mem_cons.mp hxmem with rfl | hxt
  · exact le_rfl
  · exact (List.pairwise_cons.mp hsorted).1 x hxt

/-- Inversion of a successful `applyFilter` run: the output is the thresholded
persistence over the same `x` column, the diagram is passed through, and the
threshold is one of the persistence values. -/
theorem applyFilter_ok {n : ℕ} {x pers : ℕ → ℚ} {diagram : Option (List (ℚ × ℚ))}
    {k : ℕ} {res : Result} (h : applyFilter n x pers diagram k = .ok res) :
    ∃ threshold ws,
      res = ⟨(List.range n).map
          (fun i => (x i, if pers i < threshold then 0 else pers i)),
        diagram, ws⟩ ∧ threshold ∈ sortedDesc (persListOf n pers) := by
  unfold applyFilter at h
  dsimp only at h
  cases hbr : filterBranch n (sortedDesc (persListOf n pers)) k with
  | error e =>
    rw [hbr] at h
    cases h
  | ok kw =>
    rw [hbr] at h
    dsimp only at h
    cases hth : pyIdx (sortedDesc (persListOf n pers)) ((kw.1 : ℤ) - 1) with
    | error e =>
      rw [hth] at h
      cases h
    | ok threshold =>
      rw [hth] at h
      have hres : res = ⟨(List.range n).map
          (fun i => (x i, if pers i < threshold then 0 else pers i)),
        diagram, kw.2⟩ := by
        injection h with h'
        exact h'.symm
      exact ⟨threshold, kw.2, hres, pyIdx_ok_mem hth⟩

theorem yOf_toPairs {rows : List (List ℚ)} {j : ℕ} (hj : j < rows.length) :
    yOf (toPairs rows) j = (rows.getD j []).getD 1 0 := by
  unfold yOf toPairs
  rw [List.getD_eq_getElem _ _ (by rw [List.length_map]; exact hj),
    List.getElem_map, List.getD_eq_getElem _ _ hj]

theorem xOf_toPairs {rows : List (List ℚ)} {j : ℕ} (hj : j < rows.length) :
    xOf (toPairs rows) j = (rows.getD j []).getD 0 0 := by
  unfold xOf toPairs
  rw [List.getD_eq_getElem _ _ (by rw [List.length_map]; exact hj),
    List.getElem_map, List.getD_eq_getElem _ _ hj]

theorem map_xOf_eq (rows : List (List ℚ)) :
    (List.range (toPairs rows).length).map (xOf (toPairs rows)) =
      rows.map (fun r => r.getD 0 0) := by
  apply List.ext_getElem
  · rw [List.length_map, List.length_range, toPairs_length, List.length_map]
  · intro i h1' h2'
    have hi : i < rows.length := by
      rw [List.length_map, List.length_range, toPairs_length] at h1'
      exact h1'
    rw [List.getElem_map, List.getElem_range, List.getElem_map,
      xOf_toPairs hi, List.getD_eq_getElem _ _ hi]

/-- For indices below `rows.length`, the `y` column value is an element of the
mapped height list, and conversely. -/
theorem ys_getD {rows : List (List ℚ)} {j : ℕ} (hj : j < rows.length) :
    (rows.map fun r => r.getD 1 0).getD j 0 = (rows.getD j []).getD 1 0 := by
  rw [List.getD_eq_getElem _ _ (by rw [List.length_map]; exact hj),
    List.getElem_map, List.getD_eq_getElem _ _ hj]

/-- C3: for every input with zero samples and for every input whose elements
are not shaped as 2-component pairs, `fit_transform` fails with the
invalid-input error and never returns a result. -/
theorem C3_invalid_input_error (cd : Bool) (k : Option ℕ) (rows : List (List ℚ))
    (h : rows = [] ∨ ∃ r ∈ rows, r.length ≠ 2) :
    fit_transform cd k rows = .error .invalidInput :=
  fit_transform_invalid cd k rows h

/-- Witness for C3: the empty input and a 3-component row both abort with the
invalid-input error. -/
theorem C3_invalid_input_error_witness :
    fit_transform false none ([] : List (List ℚ)) = .error .invalidInput ∧
    fit_transform true (some 2) [[1, 2, 3]] = .error .invalidInput :=
  ⟨C3_invalid_input_error false none [] (Or.inl rfl),
   C3_invalid_input_error true (some 2) [[1, 2, 3]]
     (Or.inr ⟨[1, 2, 3], List.mem_cons_self _ _, by decide⟩)⟩

/-- C1 is violated by the code: requesting `n_peaks = N - 1` makes the
duplicate-check read `persistence_values[n_peaks + 1]`, one past the end of
the list, so `fit_transform` aborts with an `IndexError` instead of completing
with a warning.  Here `N = 2` and `n_peaks = 1`. -/
theorem C1_filter_index_error :
    fit_transform false (some 1) [[0, 1], [1, 2]] = .error .indexError := by
  decide

/-- C6 is violated by the code: with the persistence values `[2, 0, 2, 0]`
(heights `[2, 0, 2, 0]`) and `k = 2`, the k-th and (k+1)-th largest
persistence values (`2` and `0`, positions 1 and 2 of the descending sort)
differ, so under the claim no warning should be emitted; the code compares
positions `k` and `k+1` instead and logs the duplicate-values warning. -/
theorem C6_warning_off_by_one :
    fit_transform false (some 2) [[0, 2], [1, 0], [2, 2], [3, 0]] =
      .ok ⟨[(0, 2), (1, 0), (2, 2), (3, 0)], none, [Warn.duplicateValues]⟩ ∧
    (sortedDesc [2, 0, 2, 0]).getD 1 0 ≠ (sortedDesc [2, 0, 2, 0]).getD 2 0 := by
  decide

/-- Counterexample to C7 as stated: `total_persistence` takes no absolute
value, so on the diagram `[(0, 1)]` (birth below death) the result at
`p = 1.0` is `-1`, not `Σ |birth - death| = 1`. -/
theorem C7_abs_counterexample :
    total_persistence1 [(0, 1)] ≠
      (([(0, 1)] : List (ℚ × ℚ)).map fun q => |q.1 - q.2|).sum := by
  decide

/-- C7 amended: `total_persistence(1.0)` is the plain sum of
`birth - death` over the diagram; it agrees with the claimed
`Σ |birth - death|` exactly when every entry has birth ≥ death (as every
diagram produced by `fit_transform` does). -/
theorem C7_total_persistence_amended (pairs : List (ℚ × ℚ))
    (h : ∀ q ∈ pairs, q.2 ≤ q.1) :
    total_persistence1 pairs = (pairs.map fun q => q.1 - q.2).sum ∧
    total_persistence1 pairs = (pairs.map fun q => |q.1 - q.2|).sum := by
  constructor
  · unfold total_persistence1 total_persistence_pow
    simp only [pow_one]
  · unfold total_persistence1 total_persistence_pow
    refine congrArg List.sum (List.map_congr_left ?_)
    intro q hq
    rw [pow_one, abs_of_nonneg (by linarith [h q hq])]

/-- Witness for the amended C7 at a concrete diagram. -/
theorem C7_total_persistence_amended_witness :
    total_persistence1 [((3 : ℚ), 1), (2, 2)] =
      (([((3 : ℚ), 1), (2, 2)] : List (ℚ × ℚ)).map fun q => q.1 - q.2).sum ∧
    total_persistence1 [((3 : ℚ), 1), (2, 2)] =
      (([((3 : ℚ), 1), (2, 2)] : List (ℚ × ℚ)).map fun q => |q.1 - q.2|).sum :=
  C7_total_persistence_amended _ (by decide)

/-- C5: requesting `n_peaks` equal to the sample count produces exactly the
same result as running with filtering disabled: the threshold becomes the
smallest persistence value, below which nothing lies strictly. -/
theorem C5_full_peak_count_identity (cd : Bool) (rows : List (List ℚ))
    (h1 : rows ≠ []) (h2 : ∀ r ∈ rows, r.length = 2) :
    fit_transform cd (some rows.length) rows = fit_transform cd none rows := by
  rw [fit_transform_valid_some h1 h2, fit_transform_valid_none h1 h2]
  have hnr : (toPairs rows).length = rows.length := toPairs_length rows
  have hn : 0 < (toPairs rows).length := by
    rw [hnr]
    exact List.length_pos.mpr h1
  unfold applyFilter
  dsimp only
  rw [show filterBranch (toPairs rows).length
      (sortedDesc (persListOf (toPairs rows).length
        (finalState (toPairs rows).length (yOf (toPairs rows)) cd).pers))
      rows.length = .ok (rows.length, []) from by
    unfold filterBranch
    rw [if_pos hnr.symm]]
  dsimp only
  set P := (finalState (toPairs rows).length (yOf (toPairs rows)) cd).pers with hP
  have hplen : (sortedDesc (persListOf (toPairs rows).length P)).length =
      (toPairs rows).length := by
    rw [sortedDesc_length]
    unfold persListOf
    rw [List.length_map, List.length_range]
  have h1' : 1 ≤ rows.length := List.length_pos.mpr h1
  have hidx : ((rows.length : ℤ) - 1) = (((rows.length - 1 : ℕ)) : ℤ) := by omega
  rw [hidx, pyIdx_nat_ok (by rw [hplen, hnr]; omega)]
  dsimp only
  have hmap : ((List.range (toPairs rows).length).map fun i =>
      (xOf (toPairs rows) i,
        if P i < (sortedDesc (persListOf (toPairs rows).length P)).getD
            (rows.length - 1) 0
        then 0 else P i)) =
      ((List.range (toPairs rows).length).map fun i =>
        (xOf (toPairs rows) i, P i)) := by
    apply List.map_congr_left
    intro i hi
    have hi' : i < (toPairs rows).length := List.mem_range.mp hi
    have hne : persListOf (toPairs rows).length P ≠ [] := by
      unfold persListOf
      intro hc
      have hlc := congrArg List.length hc
      rw [List.length_map, List.length_range, List.length_nil] at hlc
      omega
    have hmem : P i ∈ persListOf (toPairs rows).length P :=
      persListOf_mem.mpr ⟨i, hi', rfl⟩
    have hle := sortedDesc_last_le hne hmem
    have hleneq : (persListOf (toPairs rows).length P).length = rows.length := by
      unfold persListOf
      rw [List.length_map, List.length_range, hnr]
    rw [hleneq] at hle
    rw [if_neg (not_lt.mpr hle)]
  rw [hmap]

/-- Witness for C5 at a concrete input: with two samples, `n_peaks = 2`
produces the unfiltered result. -/
theorem C5_full_peak_count_identity_witness :
    fit_transform false (some 2) [[0, 1], [1, 2]] =
      fit_transform false none [[0, 1], [1, 2]] ∧
    fit_transform false none [[0, 1], [1, 2]] =
      .ok ⟨[(0, 0), (1, 1)], none, []⟩ :=
  ⟨C5_full_peak_count_identity false [[0, 1], [1, 2]] (by decide) (by decide),
   by decide⟩

/-- C2: for every valid non-empty input, the leftmost sample attaining the
maximum height (characterized by `hmax` and `hleft`) receives output
persistence `(global max height) - (global min height)`, and in diagram mode
its diagram entry's death coordinate is the global minimum height; this holds
with or without peak-count filtering. -/
theorem C2_global_max_persistence (cd : Bool) (k : Option ℕ)
    (rows : List (List ℚ)) (h1 : rows ≠ []) (h2 : ∀ r ∈ rows, r.length = 2)
    (res : Result) (hok : fit_transform cd k rows = .ok res) (i0 : ℕ)
    (hi0 : i0 < rows.length)
    (hmax : ∀ j, j < rows.length →
      (rows.getD j []).getD 1 0 ≤ (rows.getD i0 []).getD 1 0)
    (hleft : ∀ j, j < i0 →
      (rows.getD j []).getD 1 0 < (rows.getD i0 []).getD 1 0) :
    (res.output.getD i0 (0, 0)).2 =
      maxOf (rows.map fun r => r.getD 1 0) -
        minOf (rows.map fun r => r.getD 1 0) ∧
    (cd = true → ∃ d, res.diagram = some d ∧
      (d.getD i0 (0, 0)).2 = minOf (rows.map fun r => r.getD 1 0)) := by
  have hnr : (toPairs rows).length = rows.length := toPairs_length rows
  have hn : 0 < (toPairs rows).length := by
    rw [hnr]
    exact List.length_pos.mpr h1
  have hi0n : i0 < (toPairs rows).length := by omega
  have hmax' : ∀ j, j < (toPairs rows).length →
      yOf (toPairs rows) j ≤ yOf (toPairs rows) i0 := by
    intro j hj
    rw [yOf_toPairs (show j < rows.length by omega), yOf_toPairs hi0]
    exact hmax j (by omega)
  have hleft' : ∀ j, j < i0 → yOf (toPairs rows) j < yOf (toPairs rows) i0 := by
    intro j hj
    rw [yOf_toPairs (show j < rows.length by omega), yOf_toPairs hi0]
    exact hleft j hj
  have hhead :
      (sweepIndices (yOf (toPairs rows)) (toPairs rows).length).headD 0 = i0 :=
    head_leftmost hn hi0n hmax' hleft'
  have hysne : (rows.map fun r => r.getD 1 0) ≠ [] := by
    intro hc
    have hl := congrArg List.length hc
    rw [List.length_map, List.length_nil] at hl
    exact h1 (List.length_eq_zero.mp hl)
  have hyi0max : yOf (toPairs rows) i0 =
      maxOf (rows.map fun r => r.getD 1 0) := by
    apply le_antisymm
    · apply le_maxOf
      rw [yOf_toPairs hi0, ← ys_getD hi0]
      exact getD_mem (by rw [List.length_map]; exact hi0) 0
    · obtain ⟨r, hr, hrx⟩ := List.mem_map.mp (maxOf_mem hysne)
      obtain ⟨j, hjlen, hjr⟩ := List.mem_iff_getElem.mp hr
      have heq : maxOf (rows.map fun r => r.getD 1 0) =
          (rows.getD j []).getD 1 0 := by
        rw [List.getD_eq_getElem _ _ hjlen, hjr, hrx]
      rw [heq, yOf_toPairs hi0]
      exact hmax j hjlen
  have hymin : yOf (toPairs rows)
        ((sweepIndices (yOf (toPairs rows)) (toPairs rows).length).getLastD 0) =
      minOf (rows.map fun r => r.getD 1 0) := by
    obtain ⟨hminlt, hminle⟩ :=
      last_y_min (y := yOf (toPairs rows)) (n := (toPairs rows).length) hn
    apply le_antisymm
    · obtain ⟨r, hr, hrx⟩ := List.mem_map.mp (minOf_mem hysne)
      obtain ⟨j, hjlen, hjr⟩ := List.mem_iff_getElem.mp hr
      have heq : minOf (rows.map fun r => r.getD 1 0) =
          (rows.getD j []).getD 1 0 := by
        rw [List.getD_eq_getElem _ _ hjlen, hjr, hrx]
      rw [heq, ← yOf_toPairs hjlen]
      exact hminle j (by omega)
    · apply minOf_le
      have hltn : (sweepIndices (yOf (toPairs rows))
          (toPairs rows).length).getLastD 0 < rows.length := by omega
      rw [yOf_toPairs hltn, ← ys_getD hltn]
      exact getD_mem (by rw [List.length_map]; omega) 0
  have hpers : (finalState (toPairs rows).length (yOf (toPairs rows)) cd).pers i0 =
      maxOf (rows.map fun r => r.getD 1 0) -
        minOf (rows.map fun r => r.getD 1 0) := by
    have hg := @finalState_pers_gmax (toPairs rows).length (yOf (toPairs rows)) cd hn
    rw [hhead] at hg
    rw [hg, hyi0max, hymin]
  cases k with
  | none =>
    rw [fit_transform_valid_none h1 h2] at hok
    injection hok with hres
    subst hres
    constructor
    · show (((List.range (toPairs rows).length).map
          (fun i => (xOf (toPairs rows) i,
            (finalState (toPairs rows).length (yOf (toPairs rows)) cd).pers i))).getD
          i0 (0, 0)).2 = _
      rw [map_range_getD hi0n]
      exact hpers
    · intro hcd
      subst hcd
      refine ⟨(List.range (toPairs rows).length).map
        (fun i => (yOf (toPairs rows) i,
          (finalState (toPairs rows).length (yOf (toPairs rows)) true).death i)),
        rfl, ?_⟩
      rw [map_range_getD hi0n]
      have hd := finalState_death_gmax (n := (toPairs rows).length)
        (y := yOf (toPairs rows)) hn
      rw [hhead] at hd
      show (finalState (toPairs rows).length (yOf (toPairs rows)) true).death i0 = _
      rw [hd, hymin]
  | some kk =>
    rw [fit_transform_valid_some h1 h2] at hok
    obtain ⟨threshold, ws, hres, hthmem⟩ := applyFilter_ok hok
    subst hres
    have hthle : threshold ≤
        (finalState (toPairs rows).length (yOf (toPairs rows)) cd).pers i0 := by
      obtain ⟨j, hjn, hjp⟩ := persListOf_mem.mp (sortedDesc_mem.mp hthmem)
      have hup := @finalState_pers_le (toPairs rows).length (yOf (toPairs rows))
        cd hn j
      have hg := @finalState_pers_gmax (toPairs rows).length (yOf (toPairs rows))
        cd hn
      rw [hhead] at hg
      rw [hhead] at hup
      rw [← hjp, hg]
      exact hup
    constructor
    · show (((List.range (toPairs rows).length).map
          (fun i => (xOf (toPairs rows) i,
            if (finalState (toPairs rows).length (yOf (toPairs rows)) cd).pers i <
                threshold then 0
            else (finalState (toPairs rows).length
              (yOf (toPairs rows)) cd).pers i))).getD i0 (0, 0)).2 = _
      rw [map_range_getD hi0n]
      show (if (finalState (toPairs rows).length (yOf (toPairs rows)) cd).pers i0 <
          threshold then 0
        else (finalState (toPairs rows).length (yOf (toPairs rows)) cd).pers i0) = _
      rw [if_neg (not_lt.mpr hthle)]
      exact hpers
    · intro hcd
      subst hcd
      refine ⟨(List.range (toPairs rows).length).map
        (fun i => (yOf (toPairs rows) i,
          (finalState (toPairs rows).length (yOf (toPairs rows)) true).death i)),
        rfl, ?_⟩
      rw [map_range_getD hi0n]
      have hd := finalState_death_gmax (n := (toPairs rows).length)
        (y := yOf (toPairs rows)) hn
      rw [hhead] at hd
      show (finalState (toPairs rows).length (yOf (toPairs rows)) true).death i0 = _
      rw [hd, hymin]

/-- Witness for C2 at a concrete input: the heights `[1, 3, 2]` have their
leftmost maximum at position 1, which receives persistence `3 - 1 = 2` and
diagram death coordinate `1`. -/
theorem C2_global_max_persistence_witness :
    ((⟨[(0, 0), (1, 2), (2, 0)], some [(1, 1), (3, 1), (2, 2)], []⟩ :
        Result).output.getD 1 (0, 0)).2 =
      maxOf (([[0, 1], [1, 3], [2, 2]] : List (List ℚ)).map fun r => r.getD 1 0) -
        minOf (([[0, 1], [1, 3], [2, 2]] : List (List ℚ)).map fun r => r.getD 1 0) ∧
    (true = true → ∃ d,
      (⟨[(0, 0), (1, 2), (2, 0)], some [(1, 1), (3, 1), (2, 2)], []⟩ :
          Result).diagram = some d ∧
        (d.getD 1 (0, 0)).2 =
          minOf (([[0, 1], [1, 3], [2, 2]] : List (List ℚ)).map
            fun r => r.getD 1 0)) :=
  C2_global_max_persistence true none [[0, 1], [1, 3], [2, 2]] (by decide)
    (by decide) ⟨[(0, 0), (1, 2), (2, 0)], some [(1, 1), (3, 1), (2, 2)], []⟩
    (by decide) 1 (by decide) (by decide) (by decide)

/-- C4: for every valid non-empty input of `N` rows, the output is a list of
exactly `N` pairs whose first components are the input `x` values in order and
whose persistence values are all nonnegative. -/
theorem C4_output_shape (cd : Bool) (k : Option ℕ) (rows : List (List ℚ))
    (h1 : rows ≠ []) (h2 : ∀ r ∈ rows, r.length = 2) (res : Result)
    (hok : fit_transform cd k rows = .ok res) :
    res.output.length = rows.length ∧
    res.output.map Prod.fst = rows.map (fun r => r.getD 0 0) ∧
    ∀ q ∈ res.output, 0 ≤ q.2 := by
  have hnr : (toPairs rows).length = rows.length := toPairs_length rows
  have hn : 0 < (toPairs rows).length := by
    rw [hnr]
    exact List.length_pos.mpr h1
  suffices h : ∃ g : ℕ → ℚ, (∀ i, 0 ≤ g i) ∧
      res.output = (List.range (toPairs rows).length).map
        (fun i => (xOf (toPairs rows) i, g i)) by
    obtain ⟨g, hg, hout⟩ := h
    refine ⟨?_, ?_, ?_⟩
    · rw [hout, List.length_map, List.length_range, hnr]
    · rw [hout, List.map_map]
      exact map_xOf_eq rows
    · intro q hq
      rw [hout] at hq
      obtain ⟨i, _, rfl⟩ := List.mem_map.mp hq
      exact hg i
  cases k with
  | none =>
    rw [fit_transform_valid_none h1 h2] at hok
    injection hok with hres
    subst hres
    exact ⟨(finalState (toPairs rows).length (yOf (toPairs rows)) cd).pers,
      fun i => finalState_pers_nonneg hn i, rfl⟩
  | some kk =>
    rw [fit_transform_valid_some h1 h2] at hok
    obtain ⟨threshold, ws, hres, _⟩ := applyFilter_ok hok
    subst hres
    refine ⟨fun i =>
      if (finalState (toPairs rows).length (yOf (toPairs rows)) cd).pers i <
          threshold then 0
      else (finalState (toPairs rows).length (yOf (toPairs rows)) cd).pers i,
      ?_, rfl⟩
    intro i
    dsimp only
    by_cases hlt : (finalState (toPairs rows).length
        (yOf (toPairs rows)) cd).pers i < threshold
    · rw [if_pos hlt]
    · rw [if_neg hlt]
      exact finalState_pers_nonneg hn i

/-- Witness for C4 at a concrete input. -/
theorem C4_output_shape_witness :
    (⟨[(0, 0), (1, 1)], none, []⟩ : Result).output.length =
      ([[0, 1], [1, 2]] : List (List ℚ)).length ∧
    (⟨[(0, 0), (1, 1)], none, []⟩ : Result).output.map Prod.fst =
      ([[0, 1], [1, 2]] : List (List ℚ)).map (fun r => r.getD 0 0) ∧
    ∀ q ∈ (⟨[(0, 0), (1, 1)], none, []⟩ : Result).output, 0 ≤ q.2 :=
  C4_output_shape false none [[0, 1], [1, 2]] (by decide) (by decide)
    ⟨[(0, 0), (1, 1)], none, []⟩ (by decide)

/-- C10: with the diagram enabled and no filtering, each sample's output
persistence equals birth minus death of its diagram entry, and every entry's
birth is at least its death. -/
theorem C10_diagram_output_link (rows : List (List ℚ))
    (h1 : rows ≠ []) (h2 : ∀ r ∈ rows, r.length = 2) (res : Result)
    (hok : fit_transform true none rows = .ok res) :
    ∃ d, res.diagram = some d ∧ d.length = rows.length ∧
      ∀ i, i < rows.length →
        (res.output.getD i (0, 0)).2 =
          (d.getD i (0, 0)).1 - (d.getD i (0, 0)).2 ∧
        (d.getD i (0, 0)).2 ≤ (d.getD i (0, 0)).1 := by
  have hnr : (toPairs rows).length = rows.length := toPairs_length rows
  have hn : 0 < (toPairs rows).length := by
    rw [hnr]
    exact List.length_pos.mpr h1
  rw [fit_transform_valid_none h1 h2] at hok
  injection hok with hres
  subst hres
  refine ⟨(List.range (toPairs rows).length).map
    (fun i => (yOf (toPairs rows) i,
      (finalState (toPairs rows).length (yOf (toPairs rows)) true).death i)),
    rfl, ?_, ?_⟩
  · rw [List.length_map, List.length_range, hnr]
  · intro i hi
    have hin : i < (toPairs rows).length := by omega
    simp only [map_range_getD hin]
    have hlink := finalState_link (n := (toPairs rows).length)
      (y := yOf (toPairs rows)) hn i
    have hnng := @finalState_pers_nonneg (toPairs rows).length (yOf (toPairs rows))
      true hn i
    exact ⟨hlink, by linarith⟩

/-- Witness for C10 at a concrete input: heights `[1, 2]` give output
persistences `[0, 1]` and diagram `[(1, 1), (2, 1)]`. -/
theorem C10_diagram_output_link_witness :
    ∃ d, (⟨[(0, 0), (1, 1)], some [(1, 1), (2, 1)], []⟩ :
        Result).diagram = some d ∧
      d.length = ([[0, 1], [1, 2]] : List (List ℚ)).length ∧
      ∀ i, i < ([[0, 1], [1, 2]] : List (List ℚ)).length →
        ((⟨[(0, 0), (1, 1)], some [(1, 1), (2, 1)], []⟩ :
            Result).output.getD i (0, 0)).2 =
          (d.getD i (0, 0)).1 - (d.getD i (0, 0)).2 ∧
        (d.getD i (0, 0)).2 ≤ (d.getD i (0, 0)).1 :=
  C10_diagram_output_link [[0, 1], [1, 2]] (by decide) (by decide)
    ⟨[(0, 0), (1, 1)], some [(1, 1), (2, 1)], []⟩ (by decide)

set_option maxRecDepth 100000 in
set_option maxHeartbeats 2000000 in
/-- C9: on the example input the diagram's total persistence at the default
`p = 1.0` is exactly `15`. -/
theorem C9_example_total_persistence :
    ((fit_transform true none
        [[0, 3], [1, 1], [2, 6], [3, 5], [4, 8], [5, 2], [6, 7], [7, 4]]).toOption.bind
      Result.diagram).map total_persistence1 = some 15 := by
  decide

end Topf
